import Mathlib

/-!
# Verification of the testdir in-memory directory service

A shallow embedding of `directory/testdir/directory.go`: an in-memory
hierarchical directory service layered over a content-addressed blob store.
Directory payloads are lists of directory entries; a write installs a new
entry into its parent directory and propagates copy-on-write rewrites up to
the per-user root, whose key is kept in the Root table.

External collaborators that are not part of the repository's source
(the blob store, the packing-codec registry, the path parser and the entry
codec) are modelled from the specification; every such definition is marked
`Modelled from the spec:` in its doc comment.  Everything else is translated
directly from the Go source, with source line numbers noted.
-/

namespace Testdir

instance {ε α} [DecidableEq ε] [DecidableEq α] : DecidableEq (Except ε α) := fun x y =>
  match x, y with
  | .ok a, .ok b => if h : a = b then isTrue (by simp [h]) else isFalse (by simp [h])
  | .error a, .error b => if h : a = b then isTrue (by simp [h]) else isFalse (by simp [h])
  | .ok _, .error _ => isFalse (by simp)
  | .error _, .ok _ => isFalse (by simp)

/-! ## Basic data model (upspin.DirEntry and friends) -/

/-- Byte strings are modelled as lists of naturals. -/
abbrev Bytes := List Nat

/-- Modelled from the spec: a `Location` identifies where content lives in the
blob store.  The endpoint half of the Go struct is process-wiring glue
(excluded by the spec's scope), so only the store key remains. -/
structure Location where
  key : Nat
deriving DecidableEq

/-- The metadata carried by a directory entry (upspin.Metadata): directory
flag, optimistic-concurrency sequence number, size, time and the packing
descriptor. `Readers` is access control, excluded from the spec's scope. -/
structure Metadata where
  isDir : Bool
  sequence : Int
  size : Nat
  time : Nat
  packData : Bytes
deriving DecidableEq

/-- One record inside a directory payload (upspin.DirEntry): full path name,
location of its content, and metadata.  -/
structure DirEntry where
  name : String
  location : Location
  metadata : Metadata
deriving DecidableEq

/-- Modelled from the spec: the entry codec is a self-delimiting encoding with
an exact round-trip, so we work at the level of decoded entry lists: a stored
directory payload is the list of its entries, `Unmarshal` is uncons, and the
byte-splice that removes one record's bytes is removal of that list element.
A blob in the store is either raw user bytes or a packed directory payload. -/
inductive Blob where
  | bytes (data : Bytes)
  | dir (entries : List DirEntry)
deriving DecidableEq

/-- Modelled from the spec: the content-addressed blob store, `put(bytes) ->
key` and `get(key) -> bytes`.  Keys are positive indices; `0` is the zero
(never-issued) key, matching Go's zero-valued `Location`. -/
structure Store where
  blobs : List Blob
deriving DecidableEq

/-- Modelled from the spec: store a blob, returning its fresh key. -/
def Store.Put (st : Store) (b : Blob) : Nat × Store :=
  (st.blobs.length + 1, ⟨st.blobs ++ [b]⟩)

/-- Modelled from the spec: fetch the blob a key refers to, `none` if absent. -/
def Store.Get (st : Store) (key : Nat) : Option Blob :=
  if key = 0 then none else st.blobs[key - 1]?

/-- Go's zero `upspin.Location` (`loc0`, directory.go line 39). -/
def loc0 : Location := { key := 0 }

/-! ## Packing codecs (modelled) -/

/-- Modelled from the spec: a packing codec, `pack(cleartext) -> ciphertext`
and `unpack(ciphertext) -> cleartext`.  Metadata and name arguments carry no
information for the codecs in scope and are dropped. -/
structure Packer where
  pack : Bytes → Bytes
  unpack : Bytes → Bytes

/-- Modelled from the spec: the pluggable codec registry, keyed by the
packing-algorithm identifier (the first byte of the pack data). -/
def Registry := Nat → Option Packer

/-- The numeric descriptor of the plain packing (upspin.PlainPack). -/
def plainPacking : Nat := 0

/-- Pack data used for every directory payload (`dirPackData`, line 32). -/
def dirPackData : Bytes := [plainPacking]

/-- Modelled from the spec: the plain codec stores cleartext unchanged. -/
def plainPacker : Packer := { pack := id, unpack := id }

/-- Modelled from the spec: a non-identity codec standing in for any codec
that actually transforms its input (the spec allows encryption or
compression inside a codec).  It shifts every byte up by one. -/
def shiftPacker : Packer :=
  { pack := fun bs => bs.map (· + 1), unpack := fun bs => bs.map (· - 1) }

/-- Modelled from the spec: a concrete registry with the plain codec at
descriptor `0` and a transforming codec at descriptor `1`. -/
def testRegistry : Registry := fun p =>
  if p = 0 then some plainPacker else if p = 1 then some shiftPacker else none

/-! ## Path names (modelled from the spec's path-syntax collaborator) -/

/-- A parsed path: the user name and the ordered path elements
(`path.Parsed`). -/
structure Parsed where
  user : String
  elems : List String
deriving DecidableEq

/-- Split a character list at every `'/'`. -/
def splitSlash : List Char → List (List Char)
  | [] => [[]]
  | c :: cs =>
    match splitSlash cs with
    | [] => [[c]]
    | s :: ss => if c = '/' then [] :: s :: ss else (c :: s) :: ss

/-- Modelled from the spec: `parse(pathString) -> {user, orderedElements}`,
failing on a malformed path.  The user name is everything before the first
slash and must look like an email address (contain `'@'`); empty path
elements are cleaned away, so a trailing slash parses. -/
def parse (s : String) : Option Parsed :=
  match splitSlash s.data with
  | [] => none
  | user :: elems =>
    if user.contains '@' then
      some ⟨⟨user⟩, ((elems.filter (· ≠ [])).map fun e => (⟨e⟩ : String))⟩
    else
      none

/-- The function path.Join of the path package: append one element to a directory path. -/
def pathJoin (dir elem : String) : String := dir ++ "/" ++ elem

/-- Render a parsed path back to its canonical path string
(`Parsed.Path()`); the bare root renders without a trailing slash. -/
def Parsed.path (p : Parsed) : String :=
  p.elems.foldl pathJoin p.user

/-- A valid path element: nonempty and without slashes. -/
def validSeg (s : String) : Prop := s.data ≠ [] ∧ '/' ∉ s.data

/-- A canonical parsed path: user name looks like an email address and
contains no slash, and every element is a valid segment. -/
def Parsed.valid (p : Parsed) : Prop :=
  p.user.data.contains '@' = true ∧ '/' ∉ p.user.data ∧ ∀ e ∈ p.elems, validSeg e

instance (s : String) : Decidable (validSeg s) := by
  unfold validSeg; infer_instance

instance (p : Parsed) : Decidable p.valid := by
  unfold Parsed.valid; infer_instance

/-! ## Errors and the service state -/

/-- The failures the service reports.  `pathErr` is `mkStrError` (an
`os.PathError` built from an operation, a path and a message, line 60);
`seqErr` is `mkError(op, name, errSeq)` (line 473); `storeErr` stands for an
error propagated from the blob store or the entry codec; `malformedPath` is
the error from the path parser (modelled). -/
inductive DirError where
  | pathErr (op : String) (path : String) (msg : String)
  | seqErr (op : String) (path : String)
  | storeErr (msg : String)
  | malformedPath
deriving DecidableEq

/-- The directory service (`Service`, line 43): the Root table mapping each
user name to the key of that user's root directory payload, plus the blob
store it writes through.  Endpoints and the context are process wiring,
excluded by the spec's scope.  The Root map is an association list. -/
structure Service where
  Root : List (String × Nat)
  store : Store
deriving DecidableEq

/-- Assign `Root[user] = key` (the commit step, line 381 / line 242). -/
def rootUpdate (root : List (String × Nat)) (user : String) (key : Nat) :
    List (String × Nat) :=
  (user, key) :: root.filter (fun kv => kv.1 ≠ user)

/-! ## Fetching and scanning directory payloads -/

/-- Function fetchDir (line 435): the decrypted directory data associated with a
key.  At the entry-list level of the modelled codec, unpacking a directory
blob returns its entries; a key that is absent or refers to raw user bytes
fails as the store/codec would. -/
def fetchDir (store : Store) (dirKey : Nat) (_name : String) :
    Except DirError (List DirEntry) :=
  match store.Get dirKey with
  | none => .error (.storeErr "no such blob")
  | some (.bytes _) => .error (.storeErr "not a directory payload")
  | some (.dir entries) => .ok entries

/-- Function dirEntLookup (line 452): the first entry in the payload whose name is
`pathName/elem`. -/
def dirEntLookup (op : String) (pathName : String) (payload : List DirEntry)
    (elem : String) : Except DirError DirEntry :=
  if elem.length = 0 then
    .error (.pathErr op (pathName ++ "/") "empty name element")
  else
    match payload.find? (fun e => e.name == pathJoin pathName elem) with
    | some entry => .ok entry
    | none => .error (.pathErr op pathName ("no such directory entry: " ++ elem))

/-- Function fetchEntry (line 426): fetch the directory at `dirKey` and scan it for
`elem`. -/
def fetchEntry (store : Store) (op : String) (name : String) (dirKey : Nat)
    (elem : String) : Except DirError DirEntry :=
  match fetchDir store dirKey name with
  | .error err => .error err
  | .ok payload => dirEntLookup op name payload elem

/-! ## installEntry -/

/-- The sequence carried onto the new entry on an overwrite: the previous
entry's sequence plus one (line 512). -/
def bumpSeq (newEntry old : DirEntry) : DirEntry :=
  { newEntry with
    metadata := { newEntry.metadata with sequence := old.metadata.sequence + 1 } }

/-- The scan of `installEntry` (lines 482-514): find the first entry carrying
`newEntry`'s name and splice it out.  If it is a directory and directory
overwrite is not permitted, fail; if the caller supplied a nonzero expected
sequence that does not match, fail; otherwise the new entry inherits the old
sequence plus one.  When the name is absent the payload and the new entry are
returned unchanged. -/
def installLoop (op : String) (dirName : String) (newEntry : DirEntry)
    (dirOverwriteOK : Bool) :
    List DirEntry → Except DirError (List DirEntry × DirEntry)
  | [] => .ok ([], newEntry)
  | e :: rest =>
    if e.name == newEntry.name then
      if e.metadata.isDir && !dirOverwriteOK then
        .error (.pathErr op dirName "cannot overwrite directory")
      else if newEntry.metadata.sequence != 0 &&
          newEntry.metadata.sequence != e.metadata.sequence then
        .error (.seqErr op newEntry.name)
      else
        .ok (rest, bumpSeq newEntry e)
    else
      match installLoop op dirName newEntry dirOverwriteOK rest with
      | .error err => .error err
      | .ok (payload, ne) => .ok (e :: payload, ne)

/-- Function installEntry (line 477): install `newEntry` into the directory
referenced by `dirKey`, appending or overwriting as required, then pack and
store the updated payload, returning its fresh key. -/
def installEntry (store : Store) (op : String) (dirName : String) (dirKey : Nat)
    (newEntry : DirEntry) (dirOverwriteOK : Bool) :
    Except DirError (Nat × Store) :=
  match fetchDir store dirKey dirName with
  | .error err => .error err
  | .ok dirData =>
    match installLoop op dirName newEntry dirOverwriteOK dirData with
    | .error err => .error err
    | .ok (payload, entry) =>
      let (key, store') := store.Put (.dir (payload ++ [entry]))
      .ok (key, store')

/-! ## put: descent, propagation, commit -/

/-- One remembered step of the descent (one slot of the `entries` slice,
line 287): the key and path of the directory passed through and the full
name of the child entry followed out of it (`entries[i+1].Name`). -/
structure Frame where
  dirKey : Nat
  dirName : String
  childName : String
deriving DecidableEq

/-- The descent of `put` (lines 301-311): walk the path up to but not past
the last element, remembering a `Frame` per directory passed through,
deepest first.  The source hardcodes `"Put"` as the operation passed to
`fetchEntry` but uses the caller's `op` in the not-a-directory error. -/
def descendLoop (store : Store) (op : String) :
    List String → String → Nat → List Frame →
    Except DirError (List Frame × Nat × String)
  | [], curPath, dirKey, acc => .ok (acc, dirKey, curPath)
  | elem :: rest, curPath, dirKey, acc =>
    match fetchEntry store "Put" curPath dirKey elem with
    | .error err => .error err
    | .ok entry =>
      if entry.metadata.isDir then
        descendLoop store op rest (pathJoin curPath elem) entry.location.key
          ({ dirKey := dirKey, dirName := curPath,
             childName := pathJoin curPath elem } :: acc)
      else
        .error (.pathErr op (pathJoin curPath elem) "not a directory")

/-- The upward rewrite of `put` (lines 359-379): walking the remembered
frames from the deepest directory up to the root, install into each ancestor
a fresh directory entry for the just-rewritten child (directory overwrite
always permitted, sequence never carried), accumulating blobs in the store.
On failure the store keeps the blobs already written (the spec's accepted
leakage). -/
def frameEntry (f : Frame) (dirKey : Nat) : DirEntry :=
  { name := f.childName
    location := { key := dirKey }
    metadata := { isDir := true, sequence := 0, size := 0, time := 0,
                  packData := dirPackData } }

def propagate (op : String) :
    Store → List Frame → Nat → Store × Except DirError Nat
  | store, [], dirKey => (store, .ok dirKey)
  | store, f :: rest, dirKey =>
    match installEntry store op f.dirName f.dirKey (frameEntry f dirKey) true with
    | .error err => (store, .error err)
    | .ok (key, store') => propagate op store' rest key

/-- The clock behind `upspin.Now()`; wall-clock time is outside the spec's
scope, so it is a constant. -/
def upspinNow : Nat := 0

/-- The caller-supplied overrides of `Put` (upspin.PutOptions). -/
structure PutOptions where
  sequence : Int
  size : Nat
  time : Nat
deriving DecidableEq

/-- Apply `PutOptions` to the new entry's metadata (lines 340-350): each
field overrides only when nonzero. -/
def applyOpts (m : Metadata) (opts : Option PutOptions) : Metadata :=
  match opts with
  | none => m
  | some o =>
    let m1 := if o.sequence != 0 then { m with sequence := o.sequence } else m
    let m2 := if o.size != 0 then { m1 with size := o.size } else m1
    if o.time != 0 then { m2 with time := o.time } else m2

/-- The new directory entry `put` builds for the written file (lines
325-350): name, fresh location, metadata with the caller's overrides
applied. -/
def putEntry (pathName : String) (dataIsDir : Bool) (data packdata : Bytes)
    (opts : Option PutOptions) (key : Nat) : DirEntry :=
  { name := pathName
    location := { key := key }
    metadata := applyOpts
      { isDir := dataIsDir, sequence := 0, size := data.length,
        time := upspinNow, packData := packdata } opts }

/-- Function put (line 271), the underlying implementation of `Put` and
`MakeDirectory`.  Note line 274: a path-parse failure is silently dropped
(`return loc0, nil`), reported as a success carrying the zero location.
The data blob is stored before the leaf install, so a later failure leaks
it; the Root table is reassigned only as the final step.  For a directory
(`MakeDirectory`) the data is nil, which decodes as the empty payload, so
the stored blob is the empty directory. -/
def Service.put (s : Service) (op : String) (pathName : String)
    (dataIsDir : Bool) (data : Bytes) (packdata : Bytes)
    (opts : Option PutOptions) : Service × Except DirError Location :=
  match parse pathName with
  | none => (s, .ok loc0)
  | some parsed =>
    if parsed.elems.isEmpty then
      (s, .error (.pathErr op pathName "cannot create root with Put; use MakeDirectory"))
    else
      match s.Root.lookup parsed.user with
      | none => (s, .error (.pathErr op parsed.user "no such user"))
      | some dirKey =>
        match descendLoop s.store op parsed.elems.dropLast parsed.user dirKey [] with
        | .error err => (s, .error err)
        | .ok (frames, leafKey, leafPath) =>
          -- Store the data in the storage service (line 314).
          let (key, store1) := s.store.Put (if dataIsDir then .dir [] else .bytes data)
          let newEntry := putEntry pathName dataIsDir data packdata opts key
          -- leafPath is parsed.Drop(1).Path(), the name of the parent directory.
          match installEntry store1 op leafPath leafKey newEntry false with
          | .error err => ({ s with store := store1 }, .error err)
          | .ok (dirKey2, store2) =>
            match propagate op store2 frames dirKey2 with
            | (store3, .error err) => ({ s with store := store3 }, .error err)
            | (store3, .ok rootKey) =>
              ({ Root := rootUpdate s.Root parsed.user rootKey, store := store3 },
               .ok { key := key })

/-- Method Put (line 259): create or overwrite the blob with the given path,
delegating to `put` with the canonicalized path. -/
def Service.Put (s : Service) (pathName : String) (data : Bytes)
    (packdata : Bytes) (opts : Option PutOptions) :
    Service × Except DirError Location :=
  match parse pathName with
  | none => (s, .error .malformedPath)
  | some parsed => s.put "Put" parsed.path false data packdata opts

/-- Method MakeDirectory (line 220): creating a bare user root packs an empty
payload and inserts the Root table entry directly (failing if the root
already exists); any deeper directory delegates to `put` with a nil payload
and the fixed directory packing. -/
def Service.MakeDirectory (s : Service) (directoryName : String) :
    Service × Except DirError Location :=
  match parse directoryName with
  | none => (s, .error .malformedPath)
  | some parsed =>
    if parsed.elems.isEmpty then
      match s.Root.lookup parsed.user with
      | some _ => (s, .error (.pathErr "MakeDirectory" directoryName "already exists"))
      | none =>
        let (key, store') := s.store.Put (.dir [])
        ({ Root := rootUpdate s.Root parsed.user key, store := store' },
         .ok { key := key })
    else
      s.put "MakeDirectory" parsed.path true [] dirPackData none

/-! ## Lookup -/

/-- The read-only descent of `Lookup` (lines 404-413): the same walk as
`put`'s descent, without remembering frames.  The not-a-directory error
reports the full looked-up path (line 410). -/
def lookupLoop (store : Store) (pathName : String) :
    List String → String → Nat → Except DirError Nat
  | [], _, dirKey => .ok dirKey
  | elem :: rest, curPath, dirKey =>
    match fetchEntry store "Lookup" curPath dirKey elem with
    | .error err => .error err
    | .ok entry =>
      if entry.metadata.isDir then
        lookupLoop store pathName rest (pathJoin curPath elem) entry.location.key
      else
        .error (.pathErr "Lookup" pathName "not a directory")

/-- Method Lookup (line 388): the directory entry for the named file.  Note
lines 390-391: a path-parse failure returns `nil, nil` — no entry and no
error — so the parse error is silently dropped; this is modelled by the
`.ok none` result.  A found entry is `.ok (some entry)`. -/
def Service.Lookup (s : Service) (pathName : String) :
    Except DirError (Option DirEntry) :=
  match parse pathName with
  | none => .ok none
  | some parsed =>
    if parsed.elems.isEmpty then
      .error (.pathErr "Lookup" pathName "cannot use Get on directory; use Glob")
    else
      match s.Root.lookup parsed.user with
      | none => .error (.pathErr "Lookup" parsed.user "no such user")
      | some dirKey =>
        match lookupLoop s.store pathName parsed.elems.dropLast parsed.user dirKey with
        | .error err => .error err
        | .ok leafKey =>
          -- parsed.Drop(1).Path() and parsed.Elems[len-1] (lines 414-416).
          match fetchEntry s.store "Lookup"
              (Parsed.path ⟨parsed.user, parsed.elems.dropLast⟩) leafKey
              (parsed.elems.getLastD "") with
          | .error err => .error err
          | .ok entry => .ok (some entry)

/-! ## Glob -/

/-- All suffixes of a character list, longest first. -/
def suffixes : List Char → List (List Char)
  | [] => [[]]
  | c :: cs => (c :: cs) :: suffixes cs

/-- Modelled from the spec: Go's `path.Match`, shell-style wildcard matching
of one pattern element against one path segment.  `*` matches any (possibly
empty) run of characters, `?` matches one character, anything else is a
literal. -/
def matchGlob : List Char → List Char → Bool
  | [], cs => cs.isEmpty
  | p :: ps, cs =>
    if p = '*' then (suffixes cs).any fun t => matchGlob ps t
    else
      match cs with
      | [] => false
      | c :: cs' => (p == '?' || p == c) && matchGlob ps cs'

/-- The per-payload scan of `Glob` (lines 179-198): unmarshal each child
entry, parse its name, and keep those whose last path element matches the
pattern element.  A child whose stored name does not parse propagates the
parse error; a child whose name has no elements would make the Go code
index out of range, modelled as a store error. -/
def globMatchPayload (elem : String) :
    List DirEntry → Except DirError (List DirEntry)
  | [] => .ok []
  | e :: rest =>
    match parse e.name with
    | none => .error .malformedPath
    | some pe =>
      match pe.elems.getLast? with
      | none => .error (.storeErr "entry name has no elements")
      | some lastSeg =>
        match globMatchPayload elem rest with
        | .error err => .error err
        | .ok ms =>
          if matchGlob elem.data lastSeg.data then .ok (e :: ms) else .ok ms

/-- One breadth-first level of `Glob` (lines 168-199): expand every
directory candidate through its payload; non-directory candidates are
silently skipped. -/
def globExpand (store : Store) (elem : String) :
    List DirEntry → Except DirError (List DirEntry)
  | [] => .ok []
  | ent :: rest =>
    if !ent.metadata.isDir then globExpand store elem rest
    else
      match fetchDir store ent.location.key ent.name with
      | .error _ =>
        .error (.pathErr "Glob" ent.name "internal error: invalid key")
      | .ok payload =>
        match globMatchPayload elem payload with
        | .error err => .error err
        | .ok ms =>
          match globExpand store elem rest with
          | .error err => .error err
          | .ok rs => .ok (ms ++ rs)

/-- The elementwise loop of `Glob`. -/
def globLoop (store : Store) :
    List String → List DirEntry → Except DirError (List DirEntry)
  | [], next => .ok next
  | elem :: rest, next =>
    match globExpand store elem next with
    | .error err => .error err
    | .ok next' => globLoop store rest next'

/-- The root normalization of `Glob` (lines 201-206): a result entry whose
name equals the bare user name gets a trailing separator. -/
def globFixRoot (user : String) (entries : List DirEntry) : List DirEntry :=
  entries.map fun e => if e.name == user then { e with name := e.name ++ "/" } else e

/-- Modelled from the spec: `sort.Sort(dirEntrySlice(next))` sorts results
lexicographically by name (lines 207, 211-216); insertion sort realizes the
same specification. -/
def insertByName (e : DirEntry) : List DirEntry → List DirEntry
  | [] => [e]
  | x :: xs => if e.name ≤ x.name then e :: x :: xs else x :: insertByName e xs

/-- Modelled from the spec: sorting the final Glob results by name. -/
def sortByName : List DirEntry → List DirEntry
  | [] => []
  | x :: xs => insertByName x (sortByName xs)

/-- Method Glob (line 144): breadth-first wildcard expansion over the rooted
tree, seeded with a synthetic entry for the user's root, normalized and
sorted by name. -/
def Service.Glob (s : Service) (pattern : String) :
    Except DirError (List DirEntry) :=
  match parse pattern with
  | none => .error .malformedPath
  | some parsed =>
    match s.Root.lookup parsed.user with
    | none => .error (.pathErr "Glob" parsed.user "no such user")
    | some dirKey =>
      let rootEntry : DirEntry :=
        { name := Parsed.path ⟨parsed.user, []⟩
          location := { key := dirKey }
          metadata := { isDir := true, sequence := 0, size := 0, time := 0,
                        packData := [] } }
      match globLoop s.store parsed.elems [rootEntry] with
      | .error err => .error err
      | .ok next => .ok (sortByName (globFixRoot parsed.user next))

/-! ## Observers and invariants -/

/-- The entry currently stored for a path, observed through `Lookup`:
`some e` when `Lookup` finds `e`, `none` otherwise. -/
def storedEntry (s : Service) (pathName : String) : Option DirEntry :=
  match s.Lookup pathName with
  | .ok (some e) => some e
  | _ => none

/-- The uniqueness invariant on one directory payload: entry names are
unique. -/
def uniqNames (es : List DirEntry) : Prop := (es.map (·.name)).Nodup

/-- A well-formed blob: directory payloads satisfy the uniqueness
invariant. -/
def Blob.wf : Blob → Prop
  | .bytes _ => True
  | .dir es => uniqNames es

/-- A well-formed store: every stored blob is well-formed. -/
def Store.wf (st : Store) : Prop := ∀ b ∈ st.blobs, b.wf

instance (es : List DirEntry) : Decidable (uniqNames es) := by
  unfold uniqNames; infer_instance

instance (b : Blob) : Decidable b.wf := by
  cases b <;> simp only [Blob.wf] <;> infer_instance

instance (st : Store) : Decidable st.wf := by
  unfold Store.wf; exact List.decidableBAll _ _

/-- Store extension: every readable key still reads the same blob. -/
def Store.le (st st' : Store) : Prop :=
  ∀ k b, st.Get k = some b → st'.Get k = some b

/-! ## Spec-side readings used to compare against the code -/

/-- The spec's description of reading back a written file (claim wording):
dereference the entry's location key through the blob store and unpack the
bytes found there with the codec named by the entry's pack data. -/
def derefUnpack (reg : Registry) (store : Store) (e : DirEntry) : Option Bytes :=
  match store.Get e.location.key with
  | some (.bytes b) =>
    match e.metadata.packData.head? with
    | some pid => (reg pid).map fun pk => pk.unpack b
    | none => none
  | _ => none

/-- The spec's description of what `Put` stores (claim wording): the data
transformed by the pack function of the codec named by the pack
descriptor. -/
def specPackedBytes (reg : Registry) (packdata data : Bytes) : Option Bytes :=
  match packdata.head? with
  | none => none
  | some pid => (reg pid).map fun pk => pk.pack data

/-! ## A concrete scenario: a root with one directory and one file -/

/-- A freshly initialized service: no roots, empty store. -/
def svc0 : Service := { Root := [], store := ⟨[]⟩ }

/-- After `MakeDirectory "alice@x/"`: the user root exists. -/
def svc1 : Service := (svc0.MakeDirectory "alice@x/").1

/-- After `MakeDirectory "alice@x/c"`: the root holds directory `c`. -/
def svc2 : Service := (svc1.MakeDirectory "alice@x/c").1

/-- After `Put "alice@x/f" [5] [1]`: the root holds `c` and the file `f`,
whose pack descriptor names the transforming codec `1`. -/
def svc3 : Service := (svc2.Put "alice@x/f" [5] [1] none).1

/-- The directory entry stored for `alice@x/f` in the scenario. -/
def fEntry : DirEntry :=
  { name := "alice@x/f", location := { key := 4 },
    metadata := { isDir := false, sequence := 0, size := 1, time := 0,
                  packData := [1] } }

/-- The directory entry stored for `alice@x/c` in the scenario. -/
def cEntry : DirEntry :=
  { name := "alice@x/c", location := { key := 2 },
    metadata := { isDir := true, sequence := 0, size := 0, time := 0,
                  packData := [0] } }

/-! ### Canonicity: parsing a rendered valid path gives it back -/

theorem splitSlash_ne_nil (cs : List Char) : splitSlash cs ≠ [] := by
  induction cs with
  | nil => simp [splitSlash]
  | cons c cs ih =>
    simp only [splitSlash]
    match h : splitSlash cs with
    | [] => exact absurd h ih
    | s :: ss => by_cases hc : c = '/' <;> simp [hc]

theorem splitSlash_no_slash (u : List Char) (h : '/' ∉ u) :
    splitSlash u = [u] := by
  induction u with
  | nil => rfl
  | cons c cs ih =>
    simp only [List.mem_cons, not_or] at h
    simp only [splitSlash, ih h.2]
    rw [if_neg (fun hc => h.1 hc.symm)]

theorem splitSlash_append (u t : List Char) (h : '/' ∉ u) :
    splitSlash (u ++ '/' :: t) = u :: splitSlash t := by
  induction u with
  | nil =>
    obtain ⟨s, ss, hss⟩ : ∃ s ss, splitSlash t = s :: ss := by
      match hts : splitSlash t with
      | [] => exact absurd hts (splitSlash_ne_nil t)
      | a :: as => exact ⟨a, as, rfl⟩
    simp [splitSlash, hss]
  | cons c cs ih =>
    simp only [List.mem_cons, not_or] at h
    simp only [List.cons_append, splitSlash, List.append_eq, ih h.2]
    rw [if_neg (fun hc => h.1 hc.symm)]

theorem splitSlash_concat (a e : List Char) (h : '/' ∉ e) :
    splitSlash (a ++ '/' :: e) = splitSlash a ++ [e] := by
  induction a with
  | nil =>
    simp [splitSlash, splitSlash_no_slash e h]
  | cons c cs ih =>
    obtain ⟨s, ss, hss⟩ : ∃ s ss, splitSlash cs = s :: ss := by
      match hts : splitSlash cs with
      | [] => exact absurd hts (splitSlash_ne_nil cs)
      | a :: as => exact ⟨a, as, rfl⟩
    simp only [List.cons_append, splitSlash, List.append_eq, ih, hss]
    by_cases hc : c = '/' <;> simp [hc]

theorem pathJoin_data (a e : String) :
    (pathJoin a e).data = a.data ++ '/' :: e.data := by
  simp [pathJoin, String.data_append]

theorem path_concat (u : String) (es : List String) (e : String) :
    Parsed.path ⟨u, es ++ [e]⟩ = pathJoin (Parsed.path ⟨u, es⟩) e := by
  simp [Parsed.path, List.foldl_append]

theorem path_data_splits_aux (es : List String) (u : String) :
    '/' ∉ u.data → (∀ x ∈ es, validSeg x) →
    splitSlash (Parsed.path ⟨u, es⟩).data = u.data :: es.map String.data := by
  induction es using List.reverseRecOn with
  | nil => exact fun hu _ => splitSlash_no_slash u.data hu
  | append_singleton rest e ih =>
    intro hu hes
    rw [path_concat, pathJoin_data, splitSlash_concat _ _ (hes e (by simp)).2,
      ih hu (fun x hx => hes x (by simp [hx]))]
    simp

theorem path_data_splits (p : Parsed) (hp : p.valid) :
    splitSlash p.path.data = p.user.data :: p.elems.map String.data := by
  obtain ⟨u, es⟩ := p
  exact path_data_splits_aux es u hp.2.1 hp.2.2

/-- Canonicity: parsing the canonical rendering of a valid parsed path gives
back exactly that parsed path. -/
theorem parse_path (p : Parsed) (hp : p.valid) : parse p.path = some p := by
  obtain ⟨hat, hu, hes⟩ := hp
  unfold parse
  rw [path_data_splits p ⟨hat, hu, hes⟩]
  simp only [hat, if_true]
  have hfilter : (p.elems.map String.data).filter (· ≠ []) = p.elems.map String.data := by
    apply List.filter_eq_self.mpr
    intro a ha
    obtain ⟨x, hx, rfl⟩ := List.mem_map.mp ha
    simpa using (hes x hx).1
  rw [hfilter, List.map_map]
  have h1 : (⟨p.user.data⟩ : String) = p.user := by cases p.user; rfl
  have h2 : ((fun e : List Char => (⟨e⟩ : String)) ∘ String.data) = id := by
    funext s; cases s; rfl
  rw [h2, List.map_id, h1]

/-! ## Store lemmas -/

theorem Store.le_refl (st : Store) : st.le st := fun _ _ h => h

theorem Store.le_trans {s1 s2 s3 : Store} (h12 : s1.le s2) (h23 : s2.le s3) :
    s1.le s3 := fun k b h => h23 k b (h12 k b h)

theorem Store.Get_Put_self (st : Store) (b : Blob) :
    (st.Put b).2.Get (st.Put b).1 = some b := by
  simp [Store.Put, Store.Get, List.getElem?_append]

theorem Store.le_Put (st : Store) (b : Blob) : st.le (st.Put b).2 := by
  intro k b' h
  simp only [Store.Get] at h ⊢
  by_cases hk : k = 0
  · rw [if_pos hk] at h
    exact absurd h (by simp)
  · rw [if_neg hk] at h ⊢
    have hlt : k - 1 < st.blobs.length := by
      by_contra hge
      rw [List.getElem?_eq_none (by omega)] at h
      exact absurd h (by simp)
    simp [Store.Put, List.getElem?_append, hlt, h]

theorem Store.Get_mem {st : Store} {k : Nat} {b : Blob} (h : st.Get k = some b) :
    b ∈ st.blobs := by
  simp only [Store.Get] at h
  by_cases hk : k = 0
  · rw [if_pos hk] at h
    exact absurd h (by simp)
  · rw [if_neg hk] at h
    exact List.getElem?_mem h

theorem Store.wf_Put {st : Store} {b : Blob} (hst : st.wf) (hb : b.wf) :
    (st.Put b).2.wf := by
  intro x hx
  simp only [Store.Put, List.mem_append, List.mem_singleton] at hx
  rcases hx with hx | rfl
  · exact hst x hx
  · exact hb

theorem Store.wf_of_le_Get {st : Store} (hst : st.wf) {k : Nat}
    {es : List DirEntry} (h : st.Get k = some (.dir es)) : uniqNames es :=
  hst _ (Store.Get_mem h)

theorem Store.Get_Put_cases {st : Store} {b : Blob} {k : Nat} {b' : Blob}
    (h : (st.Put b).2.Get k = some b') :
    st.Get k = some b' ∨ (k = st.blobs.length + 1 ∧ b' = b) := by
  simp only [Store.Get, Store.Put] at h ⊢
  by_cases hk : k = 0
  · rw [if_pos hk] at h
    exact absurd h (by simp)
  · rw [if_neg hk] at h ⊢
    rw [List.getElem?_append] at h
    by_cases hlt : k - 1 < st.blobs.length
    · rw [if_pos hlt] at h
      exact Or.inl h
    · rw [if_neg hlt] at h
      right
      by_cases hexact : k - 1 = st.blobs.length
      · refine ⟨by omega, ?_⟩
        rw [hexact] at h
        simp at h
        exact h.symm
      · have h0 : ([b] : List Blob)[k - 1 - st.blobs.length]? = none :=
          List.getElem?_eq_none (by simp; omega)
        rw [h0] at h
        exact absurd h (by simp)

/-! ## installLoop characterization -/

theorem bumpSeq_name (ne old : DirEntry) : (bumpSeq ne old).name = ne.name := rfl

theorem bumpSeq_location (ne old : DirEntry) :
    (bumpSeq ne old).location = ne.location := rfl

theorem bumpSeq_isDir (ne old : DirEntry) :
    (bumpSeq ne old).metadata.isDir = ne.metadata.isDir := rfl

theorem bumpSeq_packData (ne old : DirEntry) :
    (bumpSeq ne old).metadata.packData = ne.metadata.packData := rfl

theorem bumpSeq_sequence (ne old : DirEntry) :
    (bumpSeq ne old).metadata.sequence = old.metadata.sequence + 1 := rfl

/-- What the `installEntry` scan computes, in terms of `find?` and
`eraseP`. -/
theorem installLoop_eq (op dirName : String) (newE : DirEntry)
    (ovOK : Bool) (payload : List DirEntry) :
    installLoop op dirName newE ovOK payload =
      match payload.find? (fun e => e.name == newE.name) with
      | none => .ok (payload, newE)
      | some old =>
        if old.metadata.isDir && !ovOK then
          .error (.pathErr op dirName "cannot overwrite directory")
        else if newE.metadata.sequence != 0 &&
            newE.metadata.sequence != old.metadata.sequence then
          .error (.seqErr op newE.name)
        else
          .ok (payload.eraseP (fun e => e.name == newE.name), bumpSeq newE old) := by
  induction payload with
  | nil => rfl
  | cons e rest ih =>
    simp only [installLoop]
    by_cases h : (e.name == newE.name) = true
    · rw [if_pos h,
        @List.find?_cons_of_pos _ (fun x => x.name == newE.name) e rest h,
        @List.eraseP_cons_of_pos _ e rest (fun x => x.name == newE.name) h]
    · rw [if_neg h,
        @List.find?_cons_of_neg _ (fun x => x.name == newE.name) e rest h,
        @List.eraseP_cons_of_neg _ e rest (fun x => x.name == newE.name) h, ih]
      cases hf : rest.find? (fun x => x.name == newE.name) with
      | none => rfl
      | some old =>
        by_cases h1 : (old.metadata.isDir && !ovOK) = true
        · simp [h1]
        · by_cases h2 : (newE.metadata.sequence != 0 &&
              newE.metadata.sequence != old.metadata.sequence) = true
          · simp [h1, h2]
          · simp [h1, h2]

/-- In a payload with unique names, nothing with the erased name survives
the splice. -/
theorem uniq_eraseP_no_match (payload : List DirEntry) (n : String)
    (h : uniqNames payload) :
    ∀ x ∈ payload.eraseP (fun e => e.name == n), x.name ≠ n := by
  induction payload with
  | nil => simp
  | cons e rest ih =>
    have hn : e.name ∉ rest.map (·.name) := by
      have := h
      simp only [uniqNames, List.map_cons, List.nodup_cons] at this
      exact this.1
    have hrest : uniqNames rest := by
      have := h
      simp only [uniqNames, List.map_cons, List.nodup_cons] at this
      exact this.2
    by_cases he : (e.name == n) = true
    · rw [@List.eraseP_cons_of_pos _ e rest (fun x => x.name == n) he]
      intro x hx hxn
      have hen : e.name = n := by simpa using he
      exact hn (hen ▸ hxn ▸ List.mem_map_of_mem (·.name) hx)
    · rw [@List.eraseP_cons_of_neg _ e rest (fun x => x.name == n) he]
      intro x hx
      rcases List.mem_cons.mp hx with rfl | hx'
      · simpa using he
      · exact ih hrest x hx'

/-- A successful install step on a unique-names payload: the result keeps the
new entry's name, nothing left in the spliced payload carries that name, and
names remain unique after the append. -/
theorem uniq_install {op dirName : String} {newE : DirEntry} {ovOK : Bool}
    {payload pl' : List DirEntry} {e' : DirEntry}
    (hil : installLoop op dirName newE ovOK payload = .ok (pl', e')) :
    e'.name = newE.name ∧ e'.location = newE.location ∧
    e'.metadata.isDir = newE.metadata.isDir ∧
    e'.metadata.packData = newE.metadata.packData ∧
    (uniqNames payload →
      (∀ x ∈ pl', x.name ≠ newE.name) ∧ uniqNames (pl' ++ [e'])) := by
  rw [installLoop_eq] at hil
  have main : (e' = newE ∨ ∃ old, e' = bumpSeq newE old) ∧
      (pl' = payload ∧ payload.find? (fun e => e.name == newE.name) = none ∨
       pl' = payload.eraseP (fun e => e.name == newE.name)) := by
    cases hf : payload.find? (fun e => e.name == newE.name) with
    | none =>
      simp only [hf] at hil
      cases hil
      exact ⟨Or.inl rfl, Or.inl ⟨rfl, rfl⟩⟩
    | some old =>
      simp only [hf] at hil
      by_cases h1 : (old.metadata.isDir && !ovOK) = true
      · simp [h1] at hil
      · by_cases h2 : (newE.metadata.sequence != 0 &&
            newE.metadata.sequence != old.metadata.sequence) = true
        · simp [h1, h2] at hil
        · rw [if_neg h1, if_neg h2] at hil
          cases hil
          exact ⟨Or.inr ⟨old, rfl⟩, Or.inr rfl⟩
  have hname : e'.name = newE.name := by
    rcases main.1 with rfl | ⟨old, rfl⟩ <;> rfl
  have hloc : e'.location = newE.location := by
    rcases main.1 with rfl | ⟨old, rfl⟩ <;> rfl
  have hisdir : e'.metadata.isDir = newE.metadata.isDir := by
    rcases main.1 with rfl | ⟨old, rfl⟩ <;> rfl
  have hpd : e'.metadata.packData = newE.metadata.packData := by
    rcases main.1 with rfl | ⟨old, rfl⟩ <;> rfl
  refine ⟨hname, hloc, hisdir, hpd, fun hu => ?_⟩
  have hnomatch : ∀ x ∈ pl', x.name ≠ newE.name := by
    rcases main.2 with ⟨rfl, hf⟩ | rfl
    · intro x hx
      have := List.find?_eq_none.mp hf x hx
      simpa using this
    · exact uniq_eraseP_no_match payload newE.name hu
  refine ⟨hnomatch, ?_⟩
  have hpl : uniqNames pl' := by
    rcases main.2 with ⟨rfl, _⟩ | rfl
    · exact hu
    · exact List.Nodup.sublist (List.Sublist.map _ (List.eraseP_sublist payload)) hu
  simp only [uniqNames, List.map_append, List.map_singleton]
  rw [List.nodup_append]
  refine ⟨hpl, List.nodup_singleton _, ?_⟩
  intro a ha hb
  simp only [List.mem_singleton] at hb
  obtain ⟨x, hx, rfl⟩ := List.mem_map.mp ha
  exact hnomatch x hx (by rw [hb, hname])

/-- Finding the installed name in the rebuilt payload yields exactly the
installed entry. -/
theorem find?_install {pl' : List DirEntry} {e' : DirEntry} {n : String}
    (hname : e'.name = n) (hno : ∀ x ∈ pl', x.name ≠ n) :
    (pl' ++ [e']).find? (fun x => x.name == n) = some e' := by
  rw [List.find?_append]
  have h1 : pl'.find? (fun x => x.name == n) = none :=
    List.find?_eq_none.mpr (fun a ha => by simpa using hno a ha)
  rw [h1]
  simp [List.find?, hname]

/-! ## installEntry inversion -/

theorem installEntry_ok_iff {store : Store} {op dn : String} {k : Nat}
    {newE : DirEntry} {ov : Bool} {key : Nat} {store' : Store} :
    installEntry store op dn k newE ov = .ok (key, store') ↔
      ∃ payload pl' e',
        fetchDir store k dn = .ok payload ∧
        installLoop op dn newE ov payload = .ok (pl', e') ∧
        key = store.blobs.length + 1 ∧
        store' = ⟨store.blobs ++ [.dir (pl' ++ [e'])]⟩ := by
  unfold installEntry
  cases hfd : fetchDir store k dn with
  | error e => simp [hfd]
  | ok payload =>
    simp only [hfd]
    cases hil : installLoop op dn newE ov payload with
    | error e => simp [hil, hfd]
    | ok pe =>
      obtain ⟨pl', e'⟩ := pe
      simp only [hil, Store.Put]
      constructor
      · intro h
        cases h
        exact ⟨payload, pl', e', rfl, hil, rfl, rfl⟩
      · rintro ⟨payload2, pl2, e2, hp2, hi2, rfl, rfl⟩
        cases hp2
        rw [hil] at hi2
        cases hi2
        rfl

theorem fetchDir_ok_iff {store : Store} {k : Nat} {n : String}
    {payload : List DirEntry} :
    fetchDir store k n = .ok payload ↔ store.Get k = some (.dir payload) := by
  unfold fetchDir
  cases hg : store.Get k with
  | none => simp
  | some b => cases b <;> simp

/-- A successful `installEntry` only appends to the store. -/
theorem installEntry_store_le {store : Store} {op dn : String} {k : Nat}
    {newE : DirEntry} {ov : Bool} {key : Nat} {store' : Store}
    (h : installEntry store op dn k newE ov = .ok (key, store')) :
    store.le store' := by
  obtain ⟨payload, pl', e', _, _, _, rfl⟩ := installEntry_ok_iff.mp h
  have := Store.le_Put store (.dir (pl' ++ [e']))
  simpa [Store.Put] using this

/-- A successful `installEntry` preserves store well-formedness. -/
theorem installEntry_wf {store : Store} {op dn : String} {k : Nat}
    {newE : DirEntry} {ov : Bool} {key : Nat} {store' : Store}
    (hst : store.wf)
    (h : installEntry store op dn k newE ov = .ok (key, store')) :
    store'.wf := by
  obtain ⟨payload, pl', e', hfd, hil, _, rfl⟩ := installEntry_ok_iff.mp h
  have hu : uniqNames payload := hst _ (Store.Get_mem (fetchDir_ok_iff.mp hfd))
  have hwfb : (Blob.dir (pl' ++ [e'])).wf :=
    ((uniq_install hil).2.2.2.2 hu).2
  exact Store.wf_Put hst hwfb

/-- The payload stored by a successful `installEntry` is readable at the
returned key. -/
theorem installEntry_Get {store : Store} {op dn : String} {k : Nat}
    {newE : DirEntry} {ov : Bool} {key : Nat} {store' : Store}
    {payload pl' : List DirEntry} {e' : DirEntry}
    (hfd : fetchDir store k dn = .ok payload)
    (hil : installLoop op dn newE ov payload = .ok (pl', e'))
    (h : installEntry store op dn k newE ov = .ok (key, store')) :
    store'.Get key = some (.dir (pl' ++ [e'])) := by
  obtain ⟨payload2, pl2, e2, hfd2, hil2, hkey, rfl⟩ := installEntry_ok_iff.mp h
  rw [hfd] at hfd2
  cases hfd2
  rw [hil] at hil2
  cases hil2
  subst hkey
  have := Store.Get_Put_self store (.dir (pl' ++ [e']))
  simpa [Store.Put] using this

/-! ## Monotonicity of reads under store extension -/

theorem fetchDir_le {st st' : Store} (h : st.le st') {k : Nat} {n : String}
    {payload : List DirEntry} (hf : fetchDir st k n = .ok payload) :
    fetchDir st' k n = .ok payload := by
  rw [fetchDir_ok_iff] at hf ⊢
  exact h _ _ hf

/-- What a successful `fetchEntry` means; in particular success does not
depend on the operation string (it only decorates errors). -/
theorem fetchEntry_ok_iff {store : Store} {op n : String} {k : Nat}
    {elem : String} {entry : DirEntry} :
    fetchEntry store op n k elem = .ok entry ↔
      ∃ payload, fetchDir store k n = .ok payload ∧ ¬elem.length = 0 ∧
        payload.find? (fun x => x.name == pathJoin n elem) = some entry := by
  unfold fetchEntry dirEntLookup
  cases hfd : fetchDir store k n with
  | error e => simp
  | ok payload =>
    by_cases hlen : elem.length = 0
    · simp [hlen]
    · simp only [hlen, if_false, if_neg hlen]
      cases hfind : payload.find? (fun x => x.name == pathJoin n elem) with
      | none => simp [hfind]
      | some e0 => simp [hfind]

theorem fetchEntry_le {st st' : Store} (h : st.le st') {op n : String}
    {k : Nat} {elem : String} {entry : DirEntry}
    (hf : fetchEntry st op n k elem = .ok entry) :
    fetchEntry st' op n k elem = .ok entry := by
  rw [fetchEntry_ok_iff] at hf ⊢
  obtain ⟨payload, hfd, hlen, hfind⟩ := hf
  exact ⟨payload, fetchDir_le h hfd, hlen, hfind⟩

theorem lookupLoop_le {st st' : Store} (h : st.le st') (pn : String) :
    ∀ (todo : List String) (cp : String) (k r : Nat),
      lookupLoop st pn todo cp k = .ok r → lookupLoop st' pn todo cp k = .ok r := by
  intro todo
  induction todo with
  | nil => intro cp k r hl; exact hl
  | cons e rest ih =>
    intro cp k r hl
    simp only [lookupLoop] at hl ⊢
    cases hfe : fetchEntry st "Lookup" cp k e with
    | error err => rw [hfe] at hl; cases hl
    | ok entry =>
      simp only [hfe] at hl
      simp only [fetchEntry_le h hfe]
      by_cases hdir : entry.metadata.isDir = true
      · rw [if_pos hdir] at hl
        rw [if_pos hdir]
        exact ih _ _ _ hl
      · rw [if_neg hdir] at hl
        cases hl

/-! ## The descent and its relation to Lookup's walk -/

/-- The frame accumulator of `descendLoop` is a pure difference list. -/
theorem descendLoop_acc (st : Store) (op : String) :
    ∀ (todo : List String) (cp : String) (k : Nat) (acc : List Frame),
      descendLoop st op todo cp k acc =
        (descendLoop st op todo cp k []).map
          (fun r => (r.1 ++ acc, r.2.1, r.2.2)) := by
  intro todo
  induction todo with
  | nil => intro cp k acc; rfl
  | cons e rest ih =>
    intro cp k acc
    simp only [descendLoop]
    cases hfe : fetchEntry st "Put" cp k e with
    | error err => rfl
    | ok entry =>
      simp only []
      by_cases hdir : entry.metadata.isDir = true
      · rw [if_pos hdir, if_pos hdir]
        rw [ih (pathJoin cp e) entry.location.key
          [{ dirKey := k, dirName := cp, childName := pathJoin cp e }],
          ih (pathJoin cp e) entry.location.key
          ({ dirKey := k, dirName := cp, childName := pathJoin cp e } :: acc)]
        cases descendLoop st op rest (pathJoin cp e) entry.location.key [] with
        | error err => rfl
        | ok r => simp [Except.map]
      · rw [if_neg hdir, if_neg hdir]
        rfl

/-- A successful descent implies `Lookup`'s walk reaches the same leaf
key. -/
theorem lookupLoop_of_descend {st : Store} {op pn : String} :
    ∀ {todo : List String} {cp : String} {k : Nat} {frames : List Frame}
      {lk : Nat} {lp : String},
      descendLoop st op todo cp k [] = .ok (frames, lk, lp) →
      lookupLoop st pn todo cp k = .ok lk := by
  intro todo
  induction todo with
  | nil =>
    intro cp k frames lk lp hd
    cases hd
    rfl
  | cons e rest ih =>
    intro cp k frames lk lp hd
    simp only [descendLoop] at hd
    simp only [lookupLoop]
    cases hfe : fetchEntry st "Put" cp k e with
    | error err => rw [hfe] at hd; cases hd
    | ok entry =>
      simp only [hfe] at hd
      have hfe2 : fetchEntry st "Lookup" cp k e = .ok entry := by
        rw [fetchEntry_ok_iff] at hfe ⊢
        exact hfe
      simp only [hfe2]
      by_cases hdir : entry.metadata.isDir = true
      · rw [if_pos hdir] at hd
        rw [if_pos hdir]
        rw [descendLoop_acc] at hd
        cases hrest : descendLoop st op rest (pathJoin cp e) entry.location.key [] with
        | error err => rw [hrest] at hd; cases hd
        | ok r =>
          rw [hrest] at hd
          obtain ⟨fr0, lk0, lp0⟩ := r
          simp only [Except.map] at hd
          cases hd
          exact ih hrest
      · rw [if_neg hdir] at hd
        cases hd

/-! ## Propagation lemmas -/

theorem propagate_append (op : String) :
    ∀ (l l' : List Frame) (st : Store) (k : Nat),
      propagate op st (l ++ l') k =
        match propagate op st l k with
        | (st', .ok k') => propagate op st' l' k'
        | (st', .error e) => (st', .error e) := by
  intro l
  induction l with
  | nil => intro l' st k; rfl
  | cons f fs ih =>
    intro l' st k
    simp only [List.cons_append, propagate]
    cases hin : installEntry st op f.dirName f.dirKey (frameEntry f k) true with
    | error err => rfl
    | ok ks =>
      obtain ⟨key, st'⟩ := ks
      exact ih l' st' key

theorem propagate_le (op : String) :
    ∀ (frames : List Frame) (st : Store) (k : Nat),
      st.le (propagate op st frames k).1 := by
  intro frames
  induction frames with
  | nil => intro st k; exact Store.le_refl st
  | cons f fs ih =>
    intro st k
    simp only [propagate]
    cases hin : installEntry st op f.dirName f.dirKey (frameEntry f k) true with
    | error err => exact Store.le_refl st
    | ok ks =>
      obtain ⟨key, st'⟩ := ks
      exact Store.le_trans (installEntry_store_le hin) (ih st' key)

theorem propagate_wf (op : String) :
    ∀ (frames : List Frame) (st : Store) (k : Nat),
      st.wf → ((propagate op st frames k).1).wf := by
  intro frames
  induction frames with
  | nil => intro st k h; exact h
  | cons f fs ih =>
    intro st k h
    simp only [propagate]
    cases hin : installEntry st op f.dirName f.dirKey (frameEntry f k) true with
    | error err => exact h
    | ok ks =>
      obtain ⟨key, st'⟩ := ks
      exact ih st' key (installEntry_wf h hin)

/-- With directory overwrite permitted and a zero sequence on the new entry,
the install scan cannot fail. -/
theorem installLoop_true_seq0_ok (op dn : String) (newE : DirEntry)
    (payload : List DirEntry) (hseq : newE.metadata.sequence = 0) :
    ∃ r, installLoop op dn newE true payload = .ok r := by
  rw [installLoop_eq]
  cases hf : payload.find? (fun e => e.name == newE.name) with
  | none => exact ⟨_, rfl⟩
  | some old =>
    simp only []
    rw [if_neg (by simp), if_neg (by simp [hseq])]
    exact ⟨_, rfl⟩

/-- The upward propagation can only fail with a store-level error: in
particular it never raises the cannot-overwrite-directory error (overwrite
is always permitted there) and never a sequence mismatch (the rebuilt
ancestor entries carry sequence zero). -/
theorem propagate_err (op : String) :
    ∀ (frames : List Frame) (st : Store) (k : Nat) (st' : Store)
      (err : DirError),
      propagate op st frames k = (st', .error err) →
      ∃ msg, err = .storeErr msg := by
  intro frames
  induction frames with
  | nil =>
    intro st k st' err h
    cases h
  | cons f fs ih =>
    intro st k st' err h
    simp only [propagate] at h
    cases hin : installEntry st op f.dirName f.dirKey (frameEntry f k) true with
    | error e0 =>
      rw [hin] at h
      cases h
      -- the failed install can only have failed in fetchDir
      unfold installEntry at hin
      cases hfd : fetchDir st f.dirKey f.dirName with
      | error e1 =>
        rw [hfd] at hin
        cases hin
        unfold fetchDir at hfd
        cases hg : st.Get f.dirKey with
        | none => rw [hg] at hfd; cases hfd; exact ⟨_, rfl⟩
        | some b =>
          rw [hg] at hfd
          cases b with
          | bytes d => cases hfd; exact ⟨_, rfl⟩
          | dir es => cases hfd
      | ok payload =>
        simp only [hfd] at hin
        obtain ⟨r, hr⟩ := installLoop_true_seq0_ok op f.dirName (frameEntry f k)
          payload rfl
        rw [hr] at hin
        cases hin
    | ok ks =>
      obtain ⟨key, st2⟩ := ks
      rw [hin] at h
      exact ih st2 key st' err h

/-- Correctness of the upward propagation: rewriting the remembered chain
of ancestors above a freshly written directory yields a new root from which
`Lookup`'s walk reaches exactly that directory.  The descent may have
happened in an older store `st`; propagation runs in any extension `st2`. -/
theorem propagate_ok (op op2 pn : String) (st : Store) :
    ∀ (todo : List String) (cp : String) (k : Nat) (frames : List Frame)
      (lk : Nat) (lp : String) (st2 : Store) (kIn : Nat),
      descendLoop st op2 todo cp k [] = .ok (frames, lk, lp) →
      st.le st2 → st2.wf →
      ∃ st3 rootKey,
        propagate op st2 frames kIn = (st3, .ok rootKey) ∧
        st2.le st3 ∧ st3.wf ∧
        lookupLoop st3 pn todo cp rootKey = .ok kIn := by
  intro todo
  induction todo with
  | nil =>
    intro cp k frames lk lp st2 kIn hd hle hwf2
    cases hd
    exact ⟨st2, kIn, rfl, Store.le_refl st2, hwf2, rfl⟩
  | cons e rest ih =>
    intro cp k frames lk lp st2 kIn hd hle hwf2
    simp only [descendLoop] at hd
    cases hfe : fetchEntry st "Put" cp k e with
    | error err => rw [hfe] at hd; cases hd
    | ok entry =>
      simp only [hfe] at hd
      by_cases hdir : entry.metadata.isDir = true
      · rw [if_pos hdir] at hd
        rw [descendLoop_acc] at hd
        cases hrest : descendLoop st op2 rest (pathJoin cp e) entry.location.key [] with
        | error err => rw [hrest] at hd; cases hd
        | ok r =>
          rw [hrest] at hd
          obtain ⟨fr0, lk0, lp0⟩ := r
          simp only [Except.map] at hd
          cases hd
          obtain ⟨st3, rk, hprop0, hle23, hwf3, hlook⟩ :=
            ih (pathJoin cp e) entry.location.key fr0 lk lp st2 kIn hrest hle hwf2
          -- the final install into the directory the step descended through
          obtain ⟨payload, hfd, hlen, hfind⟩ := fetchEntry_ok_iff.mp hfe
          have hfd3 : fetchDir st3 k cp = .ok payload :=
            fetchDir_le (Store.le_trans hle hle23) hfd
          set f0 : Frame := { dirKey := k, dirName := cp, childName := pathJoin cp e }
          obtain ⟨⟨pl', e'⟩, hr⟩ :=
            installLoop_true_seq0_ok op cp (frameEntry f0 rk) payload rfl
          have hinstall : installEntry st3 op cp k (frameEntry f0 rk) true =
              .ok (st3.blobs.length + 1, ⟨st3.blobs ++ [.dir (pl' ++ [e'])]⟩) :=
            installEntry_ok_iff.mpr ⟨payload, pl', e', hfd3, hr, rfl, rfl⟩
          set st4 : Store := (⟨st3.blobs ++ [.dir (pl' ++ [e'])]⟩ : Store)
          have hprop : propagate op st2 (fr0 ++ [f0]) kIn =
              (st4, .ok (st3.blobs.length + 1)) := by
            rw [propagate_append, hprop0]
            simp only [propagate, hinstall]
          refine ⟨st4, st3.blobs.length + 1, hprop, ?_, ?_, ?_⟩
          · exact Store.le_trans hle23 (installEntry_store_le hinstall)
          · exact installEntry_wf hwf3 hinstall
          · -- Lookup's walk through the rebuilt chain
            have hu : uniqNames payload :=
              hwf3 _ (Store.Get_mem (fetchDir_ok_iff.mp hfd3))
            obtain ⟨hname, hloc, hisdir, _, hrest'⟩ := uniq_install hr
            have hnomatch := (hrest' hu).1
            have hfd4 : fetchDir st4 (st3.blobs.length + 1) cp =
                .ok (pl' ++ [e']) := by
              rw [fetchDir_ok_iff]
              exact installEntry_Get hfd3 hr hinstall
            have hfe4 : fetchEntry st4 "Lookup" cp (st3.blobs.length + 1) e =
                .ok e' := by
              rw [fetchEntry_ok_iff]
              exact ⟨pl' ++ [e'], hfd4, hlen,
                find?_install hname hnomatch⟩
            simp only [lookupLoop, hfe4]
            rw [if_pos (by rw [hisdir]; rfl)]
            rw [hloc]
            exact lookupLoop_le (installEntry_store_le hinstall) pn rest
              (pathJoin cp e) rk kIn hlook
      · rw [if_neg hdir] at hd
        cases hd

/-! ## Small path and Root-table helpers -/

theorem path_dropLast_join (p : Parsed) (h : p.elems ≠ []) :
    pathJoin (Parsed.path ⟨p.user, p.elems.dropLast⟩) (p.elems.getLastD "") =
      p.path := by
  have hsplit : p.elems = p.elems.dropLast ++ [p.elems.getLast h] :=
    (List.dropLast_append_getLast h).symm
  have hlastd : p.elems.getLastD "" = p.elems.getLast h := by
    rw [List.getLastD_eq_getLast?, List.getLast?_eq_getLast _ h]
    rfl
  calc pathJoin (Parsed.path ⟨p.user, p.elems.dropLast⟩) (p.elems.getLastD "")
      = Parsed.path ⟨p.user, p.elems.dropLast ++ [p.elems.getLastD ""]⟩ :=
        (path_concat _ _ _).symm
    _ = p.path := by rw [hlastd, ← hsplit]

theorem rootUpdate_lookup_self (r : List (String × Nat)) (u : String) (k : Nat) :
    (rootUpdate r u k).lookup u = some k := by
  simp [rootUpdate, List.lookup]

theorem valid_last_ne (p : Parsed) (hval : p.valid) (h : p.elems ≠ []) :
    ¬(p.elems.getLastD "").length = 0 := by
  have hmem : p.elems.getLast h ∈ p.elems := List.getLast_mem h
  have hseg : validSeg (p.elems.getLast h) := hval.2.2 _ hmem
  have hlastd : p.elems.getLastD "" = p.elems.getLast h := by
    rw [List.getLastD_eq_getLast?, List.getLast?_eq_getLast _ h]
    rfl
  rw [hlastd]
  intro hlen
  exact hseg.1 (List.length_eq_zero.mp hlen)

/-! ## The main correctness lemma for put -/

/-- Running `put` with a successful descent and leaf install: the data blob
is stored at the returned key, the store only grows and stays well-formed,
and an immediate `Lookup` of the written path returns exactly the installed
entry. -/
theorem put_main (s : Service) (op : String) (p : Parsed)
    (dataIsDir : Bool) (data packdata : Bytes) (opts : Option PutOptions)
    (rootKey0 : Nat) (frames : List Frame) (lk : Nat) (lp : String)
    (payload pl' : List DirEntry) (e' : DirEntry)
    (hwf : s.store.wf) (hval : p.valid) (hne : ¬p.elems = [])
    (hroot : s.Root.lookup p.user = some rootKey0)
    (hdesc : descendLoop s.store op p.elems.dropLast p.user rootKey0 [] =
      .ok (frames, lk, lp))
    (hfd : fetchDir (s.store.Put (if dataIsDir then .dir [] else .bytes data)).2
      lk lp = .ok payload)
    (hil : installLoop op lp
      (putEntry p.path dataIsDir data packdata opts (s.store.blobs.length + 1))
      false payload = .ok (pl', e')) :
    ∃ s',
      s.put op p.path dataIsDir data packdata opts =
        (s', .ok ⟨s.store.blobs.length + 1⟩) ∧
      s.store.le s'.store ∧ s'.store.wf ∧
      s'.store.Get (s.store.blobs.length + 1) =
        some (if dataIsDir then .dir [] else .bytes data) ∧
      s'.Lookup p.path = .ok (some e') := by
  set blob : Blob := if dataIsDir then .dir [] else .bytes data with hblob
  set store1 : Store := (s.store.Put blob).2 with hstore1
  have hwf1 : store1.wf := by
    refine Store.wf_Put hwf ?_
    rw [hblob]
    cases dataIsDir <;> simp [Blob.wf, uniqNames]
  have hle01 : s.store.le store1 := Store.le_Put s.store blob
  set newE : DirEntry :=
    putEntry p.path dataIsDir data packdata opts (s.store.blobs.length + 1)
    with hnewE
  have hinstall : installEntry store1 op lp lk newE false =
      .ok (store1.blobs.length + 1, ⟨store1.blobs ++ [.dir (pl' ++ [e'])]⟩) :=
    installEntry_ok_iff.mpr ⟨payload, pl', e', hfd, hil, rfl, rfl⟩
  set store2 : Store := (⟨store1.blobs ++ [.dir (pl' ++ [e'])]⟩ : Store)
    with hstore2
  set key2 : Nat := store1.blobs.length + 1 with hkey2
  have hwf2 : store2.wf := installEntry_wf hwf1 hinstall
  have hle12 : store1.le store2 := installEntry_store_le hinstall
  obtain ⟨st3, rootKey, hprop, hle23, hwf3, hlook⟩ :=
    propagate_ok op op p.path s.store p.elems.dropLast p.user rootKey0 frames
      lk lp store2 key2 hdesc (Store.le_trans hle01 hle12) hwf2
  have hle13 : s.store.le st3 :=
    Store.le_trans hle01 (Store.le_trans hle12 hle23)
  have hle1_3 : store1.le st3 := Store.le_trans hle12 hle23
  refine ⟨⟨rootUpdate s.Root p.user rootKey, st3⟩, ?_, hle13, hwf3, ?_, ?_⟩
  · -- the run of put itself
    unfold Service.put
    rw [parse_path p hval]
    simp only []
    rw [if_neg (by simp [hne])]
    rw [hroot]
    simp only [hdesc]
    simp only [← hblob, ← hstore1,
      show (s.store.Put blob).1 = s.store.blobs.length + 1 from rfl,
      ← hnewE, hinstall, hprop]
  · have hget1 : store1.Get (s.store.blobs.length + 1) = some blob :=
      Store.Get_Put_self s.store blob
    exact hle1_3 _ _ hget1
  · -- the Lookup after the write
    unfold Service.Lookup
    rw [parse_path p hval]
    simp only []
    rw [if_neg (by simp [hne])]
    simp only [rootUpdate_lookup_self]
    simp only [hlook]
    have hu : uniqNames payload :=
      hwf1 _ (Store.Get_mem (fetchDir_ok_iff.mp hfd))
    obtain ⟨hname, _, _, _, hrest'⟩ := uniq_install hil
    have hnomatch := (hrest' hu).1
    have hfd3 : fetchDir st3 key2 (Parsed.path ⟨p.user, p.elems.dropLast⟩) =
        .ok (pl' ++ [e']) := by
      rw [fetchDir_ok_iff]
      refine hle23 _ _ ?_
      have hget2 : store2.Get key2 = some (.dir (pl' ++ [e'])) :=
        Store.Get_Put_self store1 (.dir (pl' ++ [e']))
      exact hget2
    have hfe3 : fetchEntry st3 "Lookup"
        (Parsed.path ⟨p.user, p.elems.dropLast⟩) key2
        (p.elems.getLastD "") = .ok e' := by
      rw [fetchEntry_ok_iff]
      refine ⟨pl' ++ [e'], hfd3, valid_last_ne p hval hne, ?_⟩
      rw [path_dropLast_join p hne]
      refine find?_install ?_ ?_
      · rw [hname, hnewE]
        rfl
      · intro x hx
        rw [hnewE] at hnomatch
        exact hnomatch x hx
    simp only [hfe3]

/-- Inversion of a successful `put` on a canonical path: the root existed,
the descent succeeded, the leaf payload was fetched from the store already
holding the data blob, and the leaf install succeeded; the returned location
is the data blob's fresh key. -/
theorem put_ok_inv {s : Service} {op : String} {p : Parsed}
    {dataIsDir : Bool} {data packdata : Bytes} {opts : Option PutOptions}
    {s' : Service} {loc : Location}
    (hval : p.valid) (hne : ¬p.elems = [])
    (h : s.put op p.path dataIsDir data packdata opts = (s', .ok loc)) :
    ∃ rootKey0 frames lk lp payload pl' e',
      s.Root.lookup p.user = some rootKey0 ∧
      descendLoop s.store op p.elems.dropLast p.user rootKey0 [] =
        .ok (frames, lk, lp) ∧
      fetchDir (s.store.Put (if dataIsDir then .dir [] else .bytes data)).2
        lk lp = .ok payload ∧
      installLoop op lp
        (putEntry p.path dataIsDir data packdata opts (s.store.blobs.length + 1))
        false payload = .ok (pl', e') ∧
      loc = ⟨s.store.blobs.length + 1⟩ := by
  unfold Service.put at h
  rw [parse_path p hval] at h
  simp only [] at h
  rw [if_neg (by simp [hne])] at h
  cases hroot : s.Root.lookup p.user with
  | none => rw [hroot] at h; cases h
  | some rootKey0 =>
    rw [hroot] at h
    simp only [] at h
    cases hdesc : descendLoop s.store op p.elems.dropLast p.user rootKey0 [] with
    | error err => rw [hdesc] at h; cases h
    | ok r =>
      obtain ⟨frames, lk, lp⟩ := r
      simp only [hdesc] at h
      cases hin : installEntry (s.store.Put
          (if dataIsDir then .dir [] else .bytes data)).2 op lp lk
          (putEntry p.path dataIsDir data packdata opts
            (s.store.blobs.length + 1)) false with
      | error err =>
        rw [show (s.store.Put (if dataIsDir = true then Blob.dir [] else Blob.bytes data)).1 =
            s.store.blobs.length + 1 from rfl] at h
        rw [hin] at h
        cases h
      | ok ks =>
        obtain ⟨key2, store2⟩ := ks
        rw [show (s.store.Put (if dataIsDir = true then Blob.dir [] else Blob.bytes data)).1 =
            s.store.blobs.length + 1 from rfl] at h
        rw [hin] at h
        simp only [] at h
        cases hprop : propagate op store2 frames key2 with
        | mk st3 res =>
          rw [hprop] at h
          cases res with
          | error err => simp only [] at h; cases h
          | ok rootKey =>
            simp only [] at h
            obtain ⟨payload, pl', e', hfd, hil, _, _⟩ :=
              installEntry_ok_iff.mp hin
            refine ⟨rootKey0, frames, lk, lp, payload, pl', e',
              rfl, hdesc, hfd, hil, ?_⟩
            cases h
            rfl

/-- What `Lookup` reports on a state whose descent succeeds: exactly the
first entry carrying the full path name in the parent's payload, or the
no-such-entry error. -/
theorem Lookup_of_descend {s : Service} {op : String} {p : Parsed}
    {rootKey0 : Nat} {frames : List Frame} {lk : Nat} {lp : String}
    (hval : p.valid) (hne : ¬p.elems = [])
    (hroot : s.Root.lookup p.user = some rootKey0)
    (hdesc : descendLoop s.store op p.elems.dropLast p.user rootKey0 [] =
      .ok (frames, lk, lp))
    {payload : List DirEntry}
    (hfd : fetchDir s.store lk (Parsed.path ⟨p.user, p.elems.dropLast⟩) =
      .ok payload) :
    s.Lookup p.path =
      match payload.find? (fun x => x.name == p.path) with
      | some old => .ok (some old)
      | none => .error (.pathErr "Lookup"
          (Parsed.path ⟨p.user, p.elems.dropLast⟩)
          ("no such directory entry: " ++ p.elems.getLastD "")) := by
  unfold Service.Lookup
  rw [parse_path p hval]
  simp only []
  rw [if_neg (by simp [hne])]
  rw [hroot]
  simp only []
  have hl : lookupLoop s.store p.path p.elems.dropLast p.user rootKey0 =
      .ok lk := @lookupLoop_of_descend s.store op p.path _ _ _ _ _ _ hdesc
  simp only [hl]
  unfold fetchEntry
  rw [hfd]
  unfold dirEntLookup
  simp only []
  rw [if_neg (valid_last_ne p hval hne)]
  rw [path_dropLast_join p hne]
  cases payload.find? (fun x => x.name == p.path) <;> rfl

/-- The stored-entry observer under a successful descent. -/
theorem storedEntry_of_descend {s : Service} {op : String} {p : Parsed}
    {rootKey0 : Nat} {frames : List Frame} {lk : Nat} {lp : String}
    (hval : p.valid) (hne : ¬p.elems = [])
    (hroot : s.Root.lookup p.user = some rootKey0)
    (hdesc : descendLoop s.store op p.elems.dropLast p.user rootKey0 [] =
      .ok (frames, lk, lp))
    {payload : List DirEntry}
    (hfd : fetchDir s.store lk (Parsed.path ⟨p.user, p.elems.dropLast⟩) =
      .ok payload) :
    storedEntry s p.path = payload.find? (fun x => x.name == p.path) := by
  unfold storedEntry
  rw [Lookup_of_descend hval hne hroot hdesc hfd]
  cases payload.find? (fun x => x.name == p.path) <;> rfl

/-! ## Outcomes of the install scan by case -/

theorem installLoop_not_found {op dn : String} {newE : DirEntry} {ovOK : Bool}
    {payload : List DirEntry}
    (hf : payload.find? (fun e => e.name == newE.name) = none) :
    installLoop op dn newE ovOK payload = .ok (payload, newE) := by
  rw [installLoop_eq, hf]

theorem installLoop_found_ok {op dn : String} {newE old : DirEntry}
    {ovOK : Bool} {payload : List DirEntry}
    (hf : payload.find? (fun e => e.name == newE.name) = some old)
    (hdir : ¬(old.metadata.isDir && !ovOK) = true)
    (hseq : ¬(newE.metadata.sequence != 0 &&
      newE.metadata.sequence != old.metadata.sequence) = true) :
    installLoop op dn newE ovOK payload =
      .ok (payload.eraseP (fun e => e.name == newE.name), bumpSeq newE old) := by
  rw [installLoop_eq, hf]
  simp only []
  rw [if_neg hdir, if_neg hseq]

theorem installLoop_found_dir_err {op dn : String} {newE old : DirEntry}
    {payload : List DirEntry}
    (hf : payload.find? (fun e => e.name == newE.name) = some old)
    (hdir : old.metadata.isDir = true) :
    installLoop op dn newE false payload =
      .error (.pathErr op dn "cannot overwrite directory") := by
  rw [installLoop_eq, hf]
  simp only []
  rw [if_pos (by simp [hdir])]

theorem installLoop_found_seq_err {op dn : String} {newE old : DirEntry}
    {ovOK : Bool} {payload : List DirEntry}
    (hf : payload.find? (fun e => e.name == newE.name) = some old)
    (hdir : ¬(old.metadata.isDir && !ovOK) = true)
    (hs1 : ¬newE.metadata.sequence = 0)
    (hs2 : ¬newE.metadata.sequence = old.metadata.sequence) :
    installLoop op dn newE ovOK payload = .error (.seqErr op newE.name) := by
  rw [installLoop_eq, hf]
  simp only []
  rw [if_neg hdir, if_pos (by simp [hs1, hs2])]

/-- Running put with a failing leaf install: the error propagates, the Root table
is untouched, and the store keeps only the extra (leaked) data blob. -/
theorem put_install_error {s : Service} {op : String} {p : Parsed}
    {dataIsDir : Bool} {data packdata : Bytes} {opts : Option PutOptions}
    {rootKey0 : Nat} {frames : List Frame} {lk : Nat} {lp : String}
    {payload : List DirEntry} {err : DirError}
    (hval : p.valid) (hne : ¬p.elems = [])
    (hroot : s.Root.lookup p.user = some rootKey0)
    (hdesc : descendLoop s.store op p.elems.dropLast p.user rootKey0 [] =
      .ok (frames, lk, lp))
    (hfd : fetchDir (s.store.Put (if dataIsDir then .dir [] else .bytes data)).2
      lk lp = .ok payload)
    (hil : installLoop op lp
      (putEntry p.path dataIsDir data packdata opts (s.store.blobs.length + 1))
      false payload = .error err) :
    s.put op p.path dataIsDir data packdata opts =
      ({ s with store :=
          (s.store.Put (if dataIsDir then .dir [] else .bytes data)).2 },
       .error err) := by
  have hin : installEntry
      (s.store.Put (if dataIsDir then .dir [] else .bytes data)).2 op lp lk
      (putEntry p.path dataIsDir data packdata opts (s.store.blobs.length + 1))
      false = .error err := by
    unfold installEntry
    rw [hfd]
    simp only [hil]
  unfold Service.put
  rw [parse_path p hval]
  simp only []
  rw [if_neg (by simp [hne])]
  rw [hroot]
  simp only [hdesc]
  simp only [show (s.store.Put (if dataIsDir = true then Blob.dir []
    else Blob.bytes data)).1 = s.store.blobs.length + 1 from rfl, hin]

/-! ## Failure leaves the Root table alone; writes preserve well-formedness -/

theorem put_error_Root {s : Service} {op pn : String} {dataIsDir : Bool}
    {data packdata : Bytes} {opts : Option PutOptions} {s' : Service}
    {err : DirError}
    (h : s.put op pn dataIsDir data packdata opts = (s', .error err)) :
    s'.Root = s.Root := by
  unfold Service.put at h
  split at h
  · cases h
  · split at h
    · cases h
      rfl
    · split at h
      · cases h
        rfl
      · split at h
        · cases h
          rfl
        · split at h
          simp only [] at h
          split at h
          · cases h
            rfl
          · split at h
            · cases h
              rfl
            · cases h

theorem Put_error_Root {s : Service} {pn : String} {data packdata : Bytes}
    {opts : Option PutOptions} {s' : Service} {err : DirError}
    (h : s.Put pn data packdata opts = (s', .error err)) :
    s'.Root = s.Root := by
  unfold Service.Put at h
  split at h
  · cases h
    rfl
  · exact put_error_Root h

theorem MakeDirectory_error_Root {s : Service} {dn : String} {s' : Service}
    {err : DirError}
    (h : s.MakeDirectory dn = (s', .error err)) :
    s'.Root = s.Root := by
  unfold Service.MakeDirectory at h
  split at h
  · cases h
    rfl
  · split at h
    · split at h
      · cases h
        rfl
      · cases h
    · exact put_error_Root h

theorem put_wf (s : Service) (op pn : String) (dataIsDir : Bool)
    (data packdata : Bytes) (opts : Option PutOptions)
    (hwf : s.store.wf) :
    ((s.put op pn dataIsDir data packdata opts).1).store.wf := by
  have hwf1 : ((s.store.Put (if dataIsDir then .dir [] else .bytes data)).2).wf := by
    refine Store.wf_Put hwf ?_
    cases dataIsDir <;> simp [Blob.wf, uniqNames]
  unfold Service.put
  split
  · exact hwf
  · split
    · exact hwf
    · split
      · exact hwf
      · split
        · exact hwf
        · next frames1 leafKey1 leafPath1 hdesc1 =>
          split
          next key1 store1' heq =>
          have hwf1' : store1'.wf := by
            have h2 := hwf1
            rw [heq] at h2
            exact h2
          simp only []
          split
          · exact hwf1'
          · next key2 store2 hin =>
            split
            · next st3 err hprop =>
              have h3 := propagate_wf op frames1 store2 key2 (installEntry_wf hwf1' hin)
              rw [hprop] at h3
              exact h3
            · next st3 rootKey hprop =>
              have h3 := propagate_wf op frames1 store2 key2 (installEntry_wf hwf1' hin)
              rw [hprop] at h3
              exact h3

theorem Put_wf (s : Service) (pn : String) (data packdata : Bytes)
    (opts : Option PutOptions) (hwf : s.store.wf) :
    ((s.Put pn data packdata opts).1).store.wf := by
  unfold Service.Put
  split
  · exact hwf
  · exact put_wf _ _ _ _ _ _ _ hwf

theorem MakeDirectory_wf (s : Service) (dn : String) (hwf : s.store.wf) :
    ((s.MakeDirectory dn).1).store.wf := by
  unfold Service.MakeDirectory
  split
  · exact hwf
  · split
    · split
      · exact hwf
      · exact Store.wf_Put hwf (by simp [Blob.wf, uniqNames])
    · exact put_wf _ _ _ _ _ _ _ hwf

/-- A successful descent implies the leaf path is the rendering of the
walked elements. -/
theorem descendLoop_path {st : Store} {op : String} :
    ∀ {todo : List String} {cp : String} {k : Nat} {frames : List Frame}
      {lk : Nat} {lp : String},
      descendLoop st op todo cp k [] = .ok (frames, lk, lp) →
      lp = todo.foldl pathJoin cp := by
  intro todo
  induction todo with
  | nil =>
    intro cp k frames lk lp hd
    cases hd
    rfl
  | cons e rest ih =>
    intro cp k frames lk lp hd
    simp only [descendLoop] at hd
    cases hfe : fetchEntry st "Put" cp k e with
    | error err => rw [hfe] at hd; cases hd
    | ok entry =>
      simp only [hfe] at hd
      by_cases hdir : entry.metadata.isDir = true
      · rw [if_pos hdir] at hd
        rw [descendLoop_acc] at hd
        cases hrest : descendLoop st op rest (pathJoin cp e) entry.location.key [] with
        | error err => rw [hrest] at hd; cases hd
        | ok r =>
          rw [hrest] at hd
          obtain ⟨fr0, lk0, lp0⟩ := r
          simp only [Except.map] at hd
          cases hd
          exact ih hrest
      · rw [if_neg hdir] at hd
        cases hd

/-! ## Metadata option lemmas -/

theorem applyOpts_none (m : Metadata) : applyOpts m none = m := rfl

theorem applyOpts_packData (m : Metadata) (o : Option PutOptions) :
    (applyOpts m o).packData = m.packData := by
  cases o with
  | none => rfl
  | some o =>
    simp only [applyOpts]
    split_ifs <;> rfl

theorem applyOpts_isDir (m : Metadata) (o : Option PutOptions) :
    (applyOpts m o).isDir = m.isDir := by
  cases o with
  | none => rfl
  | some o =>
    simp only [applyOpts]
    split_ifs <;> rfl

theorem applyOpts_sequence_some (m : Metadata) (o : PutOptions) :
    (applyOpts m (some o)).sequence =
      if o.sequence != 0 then o.sequence else m.sequence := by
  simp only [applyOpts]
  split_ifs <;> rfl

theorem putEntry_name (pn : String) (d : Bool) (data pd : Bytes)
    (o : Option PutOptions) (k : Nat) : (putEntry pn d data pd o k).name = pn := rfl

theorem putEntry_location (pn : String) (d : Bool) (data pd : Bytes)
    (o : Option PutOptions) (k : Nat) :
    (putEntry pn d data pd o k).location = ⟨k⟩ := rfl

/-! ## The claims -/

/-- C9: for a syntactically malformed path string, `Lookup` is supposed to
return the path-parse failure; the code instead returns `nil, nil`,
silently discarding the failure.  This theorem documents the code's actual
behavior at a malformed input: no error and no entry. -/
theorem C9_lookup_drops_parse_error :
    parse "noatsign/x" = none ∧
    ∀ s : Service, s.Lookup "noatsign/x" = .ok none := by
  refine ⟨by decide, fun s => ?_⟩
  unfold Service.Lookup
  rw [show parse "noatsign/x" = none from by decide]

/-- C2: every failing `put`, `Put` or `MakeDirectory` leaves the Root table
entry of the affected user — indeed the whole Root table — exactly as it
was, so the externally visible tree is unaltered on any failure; the root
key is reassigned only as the final step of a fully successful write. -/
theorem C2_root_unchanged_on_error :
    (∀ (s : Service) (op pn : String) (dataIsDir : Bool)
       (data packdata : Bytes) (opts : Option PutOptions)
       (s' : Service) (err : DirError),
       s.put op pn dataIsDir data packdata opts = (s', .error err) →
       s'.Root = s.Root) ∧
    (∀ (s : Service) (pn : String) (data packdata : Bytes)
       (opts : Option PutOptions) (s' : Service) (err : DirError),
       s.Put pn data packdata opts = (s', .error err) → s'.Root = s.Root) ∧
    (∀ (s : Service) (dn : String) (s' : Service) (err : DirError),
       s.MakeDirectory dn = (s', .error err) → s'.Root = s.Root) :=
  ⟨fun _ _ _ _ _ _ _ _ _ h => put_error_Root h,
   fun _ _ _ _ _ _ _ h => Put_error_Root h,
   fun _ _ _ _ h => MakeDirectory_error_Root h⟩

/-- Witness for C2: a `Put` that fails with cannot-overwrite-directory and a
`MakeDirectory` that fails with already-exists both leave the Root table
unchanged. -/
theorem C2_witness :
    ((svc2.Put "alice@x/c" [9] [0] none).1).Root = svc2.Root ∧
    ((svc1.MakeDirectory "alice@x/").1).Root = svc1.Root :=
  ⟨C2_root_unchanged_on_error.2.1 svc2 "alice@x/c" [9] [0] none
     (svc2.Put "alice@x/c" [9] [0] none).1
     (.pathErr "Put" "alice@x" "cannot overwrite directory") (by decide),
   C2_root_unchanged_on_error.2.2 svc1 "alice@x/"
     (svc1.MakeDirectory "alice@x/").1
     (.pathErr "MakeDirectory" "alice@x/" "already exists") (by decide)⟩

/-- C6: one install step on a payload with unique entry names again yields
unique entry names, and consequently every write operation preserves the
store-wide invariant that every stored directory payload has unique
names. -/
theorem C6_unique_names_preserved :
    (∀ (op dn : String) (newE : DirEntry) (ovOK : Bool)
       (payload pl' : List DirEntry) (e' : DirEntry),
       uniqNames payload →
       installLoop op dn newE ovOK payload = .ok (pl', e') →
       uniqNames (pl' ++ [e'])) ∧
    (∀ (s : Service) (op pn : String) (dataIsDir : Bool)
       (data packdata : Bytes) (opts : Option PutOptions),
       s.store.wf → ((s.put op pn dataIsDir data packdata opts).1).store.wf) ∧
    (∀ (s : Service) (pn : String) (data packdata : Bytes)
       (opts : Option PutOptions),
       s.store.wf → ((s.Put pn data packdata opts).1).store.wf) ∧
    (∀ (s : Service) (dn : String),
       s.store.wf → ((s.MakeDirectory dn).1).store.wf) :=
  ⟨fun _ _ _ _ _ _ _ hu hil => ((uniq_install hil).2.2.2.2 hu).2,
   fun s op pn d data pd o hwf => put_wf s op pn d data pd o hwf,
   fun s pn data pd o hwf => Put_wf s pn data pd o hwf,
   fun s dn hwf => MakeDirectory_wf s dn hwf⟩

/-- Witness for C6: a concrete install step on a unique-names payload, and
the store invariant after a concrete write. -/
theorem C6_witness :
    uniqNames ([cEntry] ++ [fEntry]) ∧
    ((svc2.Put "alice@x/f" [5] [1] none).1).store.wf :=
  ⟨C6_unique_names_preserved.1 "Put" "alice@x" fEntry false [cEntry] [cEntry]
     fEntry (by decide) (by decide),
   C6_unique_names_preserved.2.2.1 svc2 "alice@x/f" [5] [1] none (by decide)⟩

/-- C4: a `Put` on an existing (non-directory) path with a caller-supplied
expected sequence number that is nonzero and differs from the stored one
fails with the sequence-mismatch error; the Root table is untouched and
every previously stored blob — in particular the old directory payload —
still reads back unchanged (only the leaked data blob was appended). -/
theorem C4_sequence_mismatch (s : Service) (p : Parsed)
    (data packdata : Bytes) (o : PutOptions)
    (rootKey0 : Nat) (frames : List Frame) (lk : Nat) (lp : String)
    (payload : List DirEntry) (old : DirEntry)
    (hval : p.valid) (hne : ¬p.elems = [])
    (hroot : s.Root.lookup p.user = some rootKey0)
    (hdesc : descendLoop s.store "Put" p.elems.dropLast p.user rootKey0 [] =
      .ok (frames, lk, lp))
    (hfd : fetchDir s.store lk lp = .ok payload)
    (hfind : payload.find? (fun x => x.name == p.path) = some old)
    (holddir : old.metadata.isDir = false)
    (hq0 : ¬o.sequence = 0)
    (hqold : ¬o.sequence = old.metadata.sequence) :
    s.Put p.path data packdata (some o) =
      ({ s with store := (s.store.Put (.bytes data)).2 },
       .error (.seqErr "Put" p.path)) ∧
    s.store.le ((s.Put p.path data packdata (some o)).1).store := by
  have hfd1 : fetchDir (s.store.Put
      (if false then .dir [] else .bytes data)).2 lk lp = .ok payload :=
    fetchDir_le (Store.le_Put s.store (.bytes data)) hfd
  have hseq : (putEntry p.path false data packdata (some o)
      (s.store.blobs.length + 1)).metadata.sequence = o.sequence := by
    show (applyOpts _ (some o)).sequence = o.sequence
    rw [applyOpts_sequence_some]
    simp [hq0]
  have hil : installLoop "Put" lp
      (putEntry p.path false data packdata (some o) (s.store.blobs.length + 1))
      false payload = .error (.seqErr "Put" p.path) := by
    exact installLoop_found_seq_err
      (show payload.find? (fun e => e.name ==
        (putEntry p.path false data packdata (some o)
          (s.store.blobs.length + 1)).name) = some old from hfind)
      (by simp [holddir]) (by rw [hseq]; exact hq0) (by rw [hseq]; exact hqold)
  have hput := put_install_error hval hne hroot hdesc hfd1 hil
  have hput' : s.Put p.path data packdata (some o) =
      ({ s with store := (s.store.Put (.bytes data)).2 },
       .error (.seqErr "Put" p.path)) := by
    unfold Service.Put
    rw [parse_path p hval]
    exact hput
  refine ⟨hput', ?_⟩
  rw [hput']
  exact Store.le_Put s.store (.bytes data)

/-- Witness for C4: overwriting `alice@x/f` (stored sequence 0) while
expecting sequence 5 fails with the sequence mismatch and leaves all old
blobs readable. -/
theorem C4_witness :
    svc3.Put "alice@x/f" [7] [1] (some ⟨5, 0, 0⟩) =
      ({ svc3 with store := (svc3.store.Put (.bytes [7])).2 },
       .error (.seqErr "Put" "alice@x/f")) ∧
    svc3.store.le ((svc3.Put "alice@x/f" [7] [1] (some ⟨5, 0, 0⟩)).1).store :=
  C4_sequence_mismatch svc3 ⟨"alice@x", ["f"]⟩ [7] [1] ⟨5, 0, 0⟩ 5 [] 5 "alice@x"
    [cEntry, fEntry] fEntry (by decide) (by decide) (by decide) (by decide)
    (by decide) (by decide) (by decide) (by decide) (by decide)

/-- C5: the overwrite guard.  (i) `Put` on a path currently naming a
directory fails with the cannot-overwrite-directory error.  (ii) The upward
propagation — which always permits directory overwrite and carries sequence
zero — can only fail with a store-level error, never with the overwrite (or
sequence) error.  (iii) `MakeDirectory` on a path currently naming a
non-directory entry succeeds. -/
theorem C5_overwrite_guard :
    (∀ (s : Service) (p : Parsed) (data packdata : Bytes)
       (opts : Option PutOptions) (rootKey0 : Nat) (frames : List Frame)
       (lk : Nat) (lp : String) (payload : List DirEntry) (old : DirEntry),
       p.valid → ¬p.elems = [] →
       s.Root.lookup p.user = some rootKey0 →
       descendLoop s.store "Put" p.elems.dropLast p.user rootKey0 [] =
         .ok (frames, lk, lp) →
       fetchDir s.store lk lp = .ok payload →
       payload.find? (fun x => x.name == p.path) = some old →
       old.metadata.isDir = true →
       s.Put p.path data packdata opts =
         ({ s with store := (s.store.Put (.bytes data)).2 },
          .error (.pathErr "Put" lp "cannot overwrite directory"))) ∧
    (∀ (op : String) (frames : List Frame) (st : Store) (k : Nat)
       (st' : Store) (err : DirError),
       propagate op st frames k = (st', .error err) →
       ∃ msg, err = .storeErr msg) ∧
    (∀ (s : Service) (p : Parsed) (rootKey0 : Nat) (frames : List Frame)
       (lk : Nat) (lp : String) (payload : List DirEntry) (old : DirEntry),
       s.store.wf → p.valid → ¬p.elems = [] →
       s.Root.lookup p.user = some rootKey0 →
       descendLoop s.store "MakeDirectory" p.elems.dropLast p.user rootKey0 [] =
         .ok (frames, lk, lp) →
       fetchDir s.store lk lp = .ok payload →
       payload.find? (fun x => x.name == p.path) = some old →
       old.metadata.isDir = false →
       ∃ s' loc, s.MakeDirectory p.path = (s', .ok loc)) := by
  refine ⟨?_, ?_, ?_⟩
  · intro s p data packdata opts rootKey0 frames lk lp payload old
      hval hne hroot hdesc hfd hfind holddir
    have hfd1 : fetchDir (s.store.Put
        (if false then .dir [] else .bytes data)).2 lk lp = .ok payload :=
      fetchDir_le (Store.le_Put s.store (.bytes data)) hfd
    have hil : installLoop "Put" lp
        (putEntry p.path false data packdata opts (s.store.blobs.length + 1))
        false payload =
        .error (.pathErr "Put" lp "cannot overwrite directory") := by
      exact installLoop_found_dir_err
        (show payload.find? (fun e => e.name ==
          (putEntry p.path false data packdata opts
            (s.store.blobs.length + 1)).name) = some old from hfind)
        holddir
    have hput := put_install_error hval hne hroot hdesc hfd1 hil
    unfold Service.Put
    rw [parse_path p hval]
    exact hput
  · intro op frames st k st' err h
    exact propagate_err op frames st k st' err h
  · intro s p rootKey0 frames lk lp payload old
      hwf hval hne hroot hdesc hfd hfind holddir
    have hfd1 : fetchDir (s.store.Put
        (if true then .dir [] else .bytes [])).2 lk lp = .ok payload :=
      fetchDir_le (Store.le_Put s.store (.dir [])) hfd
    have hil : installLoop "MakeDirectory" lp
        (putEntry p.path true [] dirPackData none (s.store.blobs.length + 1))
        false payload =
        .ok (payload.eraseP (fun e => e.name ==
              (putEntry p.path true [] dirPackData none
                (s.store.blobs.length + 1)).name),
             bumpSeq (putEntry p.path true [] dirPackData none
               (s.store.blobs.length + 1)) old) := by
      exact installLoop_found_ok
        (show payload.find? (fun e => e.name ==
          (putEntry p.path true [] dirPackData none
            (s.store.blobs.length + 1)).name) = some old from hfind)
        (by simp [holddir]) (by simp [putEntry, applyOpts])
    obtain ⟨s', hput, _, _, _, _⟩ :=
      put_main s "MakeDirectory" p true [] dirPackData none rootKey0 frames lk
        lp payload _ _ hwf hval hne hroot hdesc hfd1 hil
    refine ⟨s', ⟨s.store.blobs.length + 1⟩, ?_⟩
    unfold Service.MakeDirectory
    rw [parse_path p hval]
    simp only []
    rw [if_neg (by simp [hne])]
    exact hput

/-- Witness for C5: `Put` on directory `c` fails with the overwrite error; a
concrete failing propagation fails with a store error; `MakeDirectory` on
the non-directory path `alice@x/f` succeeds. -/
theorem C5_witness :
    (svc2.Put "alice@x/c" [9] [0] none =
      ({ svc2 with store := (svc2.store.Put (.bytes [9])).2 },
       .error (.pathErr "Put" "alice@x" "cannot overwrite directory"))) ∧
    (∃ msg, (DirError.storeErr "no such blob") = .storeErr msg) ∧
    (∃ s' loc, svc3.MakeDirectory "alice@x/f" = (s', .ok loc)) :=
  ⟨C5_overwrite_guard.1 svc2 ⟨"alice@x", ["c"]⟩ [9] [0] none 3 [] 3 "alice@x"
     [cEntry] cEntry (by decide) (by decide) (by decide) (by decide) (by decide)
     (by decide) (by decide),
   C5_overwrite_guard.2.1 "Put" [⟨99, "alice@x", "alice@x/c"⟩] ⟨[]⟩ 7 ⟨[]⟩
     (.storeErr "no such blob") (by decide),
   C5_overwrite_guard.2.2 svc3 ⟨"alice@x", ["f"]⟩ 5 [] 5 "alice@x"
     [cEntry, fEntry] fEntry (by decide) (by decide) (by decide) (by decide)
     (by decide) (by decide) (by decide) (by decide)⟩

/-- C10: a `Put` that supplies a nonzero expected sequence number for a path
whose name is absent from the parent directory does not fail with a sequence
mismatch: the write succeeds and the created entry carries the
caller-supplied sequence value (the optimistic-concurrency check fires only
when an entry with the target name already exists). -/
theorem C10_create_with_sequence (s : Service) (p : Parsed)
    (data packdata : Bytes) (o : PutOptions)
    (rootKey0 : Nat) (frames : List Frame) (lk : Nat) (lp : String)
    (payload : List DirEntry)
    (hwf : s.store.wf) (hval : p.valid) (hne : ¬p.elems = [])
    (hroot : s.Root.lookup p.user = some rootKey0)
    (hdesc : descendLoop s.store "Put" p.elems.dropLast p.user rootKey0 [] =
      .ok (frames, lk, lp))
    (hfd : fetchDir s.store lk lp = .ok payload)
    (hfind : payload.find? (fun x => x.name == p.path) = none)
    (hq0 : ¬o.sequence = 0) :
    ∃ s' loc e',
      s.Put p.path data packdata (some o) = (s', .ok loc) ∧
      storedEntry s' p.path = some e' ∧
      e'.metadata.sequence = o.sequence := by
  have hfd1 : fetchDir (s.store.Put
      (if false then .dir [] else .bytes data)).2 lk lp = .ok payload :=
    fetchDir_le (Store.le_Put s.store (.bytes data)) hfd
  have hil : installLoop "Put" lp
      (putEntry p.path false data packdata (some o) (s.store.blobs.length + 1))
      false payload =
      .ok (payload,
        putEntry p.path false data packdata (some o)
          (s.store.blobs.length + 1)) := by
    exact installLoop_not_found
      (show payload.find? (fun e => e.name ==
        (putEntry p.path false data packdata (some o)
          (s.store.blobs.length + 1)).name) = none from hfind)
  obtain ⟨s', hput, _, _, _, hlook⟩ :=
    put_main s "Put" p false data packdata (some o) rootKey0 frames lk lp
      payload _ _ hwf hval hne hroot hdesc hfd1 hil
  have hput' : s.Put p.path data packdata (some o) =
      (s', .ok ⟨s.store.blobs.length + 1⟩) := by
    unfold Service.Put
    rw [parse_path p hval]
    exact hput
  refine ⟨s', ⟨s.store.blobs.length + 1⟩,
    putEntry p.path false data packdata (some o) (s.store.blobs.length + 1),
    hput', ?_, ?_⟩
  · unfold storedEntry
    rw [hlook]
  · show (applyOpts _ (some o)).sequence = o.sequence
    rw [applyOpts_sequence_some]
    simp [hq0]

/-- Witness for C10: creating `alice@x/g` (absent from the root) with an
expected sequence of 9 succeeds and stores sequence 9. -/
theorem C10_witness :
    ∃ s' loc e',
      svc3.Put "alice@x/g" [8] [0] (some ⟨9, 0, 0⟩) = (s', .ok loc) ∧
      storedEntry s' "alice@x/g" = some e' ∧
      e'.metadata.sequence = (9 : Int) :=
  C10_create_with_sequence svc3 ⟨"alice@x", ["g"]⟩ [8] [0] ⟨9, 0, 0⟩ 5 [] 5
    "alice@x" [cEntry, fEntry] (by decide) (by decide) (by decide) (by decide)
    (by decide) (by decide) (by decide) (by decide)

/-- C3: on every successful `Put` with no explicit sequence option, the
sequence stored for the path's entry in its parent directory is 0 when the
name was not previously present, and the previously stored sequence plus
one when it was — so repeated overwrites store 0, 1, 2, and so on. -/
theorem C3_sequence_increment (s : Service) (p : Parsed)
    (data packdata : Bytes) (s' : Service) (loc : Location)
    (hwf : s.store.wf) (hval : p.valid) (hne : ¬p.elems = [])
    (hput : s.Put p.path data packdata none = (s', .ok loc)) :
    ∃ e', storedEntry s' p.path = some e' ∧
      e'.metadata.sequence =
        (match storedEntry s p.path with
         | some old => old.metadata.sequence + 1
         | none => 0) := by
  unfold Service.Put at hput
  rw [parse_path p hval] at hput
  simp only [] at hput
  obtain ⟨rootKey0, frames, lk, lp, payload, pl', e', hroot, hdesc, hfd1, hil, hloc⟩ :=
    put_ok_inv hval hne hput
  have hget1 : (s.store.Put
      (if false then Blob.dir [] else Blob.bytes data)).2.Get lk =
      some (.dir payload) := fetchDir_ok_iff.mp hfd1
  rcases Store.Get_Put_cases hget1 with hpre | ⟨hk, habs⟩
  · have hfd0 : fetchDir s.store lk (Parsed.path ⟨p.user, p.elems.dropLast⟩) =
        .ok payload := fetchDir_ok_iff.mpr hpre
    have hstored := storedEntry_of_descend hval hne hroot hdesc hfd0
    obtain ⟨s'', hput2, _, _, _, hlook⟩ :=
      put_main s "Put" p false data packdata none rootKey0 frames lk lp payload
        pl' e' hwf hval hne hroot hdesc hfd1 hil
    rw [hput2] at hput
    cases hput
    refine ⟨e', ?_, ?_⟩
    · unfold storedEntry
      rw [hlook]
    · rw [hstored]
      cases hfind : payload.find? (fun x => x.name == p.path) with
      | none =>
        have hil2 : installLoop "Put" lp
            (putEntry p.path false data packdata none (s.store.blobs.length + 1))
            false payload =
            .ok (payload, putEntry p.path false data packdata none
              (s.store.blobs.length + 1)) :=
          installLoop_not_found
            (show payload.find? (fun e => e.name ==
              (putEntry p.path false data packdata none
                (s.store.blobs.length + 1)).name) = none from hfind)
        rw [hil2] at hil
        cases hil
        rfl
      | some old =>
        rw [installLoop_eq,
          show payload.find? (fun e => e.name ==
            (putEntry p.path false data packdata none
              (s.store.blobs.length + 1)).name) = some old from hfind] at hil
        simp only [] at hil
        by_cases h1 : (old.metadata.isDir && !false) = true
        · rw [if_pos h1] at hil
          cases hil
        · rw [if_neg h1, if_neg (by simp [putEntry, applyOpts])] at hil
          cases hil
          rfl
  · exact absurd habs (by simp)

/-- Witness for C3: overwriting `alice@x/f` (stored sequence 0) with no
options stores sequence 1 = 0 + 1. -/
theorem C3_witness :
    ∃ e',
      storedEntry (svc3.Put "alice@x/f" [6] [0] none).1 "alice@x/f" = some e' ∧
      e'.metadata.sequence =
        (match storedEntry svc3 "alice@x/f" with
         | some old => old.metadata.sequence + 1
         | none => 0) :=
  C3_sequence_increment svc3 ⟨"alice@x", ["f"]⟩ [6] [0]
    (svc3.Put "alice@x/f" [6] [0] none).1 ⟨6⟩ (by decide) (by decide)
    (by decide) (by decide)

/-- Counterexample to C7 as stated: `Put` with pack descriptor 1 (a codec
whose pack is not the identity) stores the caller's bytes `[5]` verbatim,
not the packed form `[6]` the claim requires. -/
theorem C7_counterexample :
    svc2.Put "alice@x/f" [5] [1] none = (svc3, .ok ⟨4⟩) ∧
    svc3.Lookup "alice@x/f" = .ok (some fEntry) ∧
    svc3.store.Get fEntry.location.key = some (.bytes [5]) ∧
    specPackedBytes testRegistry [1] [5] = some [6] ∧
    ¬(([5] : Bytes) = [6]) := by
  refine ⟨by decide, by decide, by decide, by decide, by decide⟩

/-- C7 (amended): the bytes stored at the key recorded in the resulting
directory entry are exactly the caller-supplied data, unchanged; the pack
descriptor is recorded in the entry's metadata but no codec is invoked on
the data. -/
theorem C7_stored_raw (s : Service) (p : Parsed) (data packdata : Bytes)
    (opts : Option PutOptions) (s' : Service) (loc : Location)
    (hwf : s.store.wf) (hval : p.valid) (hne : ¬p.elems = [])
    (hput : s.Put p.path data packdata opts = (s', .ok loc)) :
    ∃ e', s'.Lookup p.path = .ok (some e') ∧ e'.location.key = loc.key ∧
      s'.store.Get e'.location.key = some (.bytes data) ∧
      e'.metadata.packData = packdata := by
  unfold Service.Put at hput
  rw [parse_path p hval] at hput
  simp only [] at hput
  obtain ⟨rootKey0, frames, lk, lp, payload, pl', e', hroot, hdesc, hfd1, hil, _⟩ :=
    put_ok_inv hval hne hput
  obtain ⟨s'', hput2, _, _, hget, hlook⟩ :=
    put_main s "Put" p false data packdata opts rootKey0 frames lk lp payload
      pl' e' hwf hval hne hroot hdesc hfd1 hil
  rw [hput2] at hput
  cases hput
  obtain ⟨hname, hlocEq, hisdir, hpd, _⟩ := uniq_install hil
  have hg : s'.store.Get e'.location.key = some (.bytes data) := by
    rw [hlocEq]
    exact hget
  refine ⟨e', hlook, ?_, hg, ?_⟩
  · rw [hlocEq]
    rfl
  · rw [hpd]
    show (applyOpts _ opts).packData = packdata
    rw [applyOpts_packData]

/-- Witness for C7 (amended): writing `[7]` with pack descriptor 1 stores
the raw `[7]` at the entry's key. -/
theorem C7_witness :
    ∃ e', ((svc3.Put "alice@x/g" [7] [1] none).1).Lookup "alice@x/g" =
        .ok (some e') ∧
      e'.location.key = (6 : Nat) ∧
      ((svc3.Put "alice@x/g" [7] [1] none).1).store.Get e'.location.key =
        some (.bytes [7]) ∧
      e'.metadata.packData = [1] :=
  C7_stored_raw svc3 ⟨"alice@x", ["g"]⟩ [7] [1] none
    (svc3.Put "alice@x/g" [7] [1] none).1 ⟨6⟩ (by decide) (by decide)
    (by decide) (by decide)

/-- Counterexample to C1 as stated: after `Put "alice@x/f" [5]` with pack
descriptor 1, the entry `Lookup` returns dereferences through the store and
unpacks (with the matching codec) to `[4]`, not the written data `[5]`,
because the service stored the bytes raw and codec 1's unpack is not the
identity. -/
theorem C1_counterexample :
    svc2.Put "alice@x/f" [5] [1] none = (svc3, .ok ⟨4⟩) ∧
    svc3.Lookup "alice@x/f" = .ok (some fEntry) ∧
    derefUnpack testRegistry svc3.store fEntry = some [4] ∧
    ¬(([4] : Bytes) = [5]) := by
  refine ⟨by decide, by decide, by decide, by decide⟩

/-- C1 (amended): after a successful `Put`, an immediate `Lookup` returns an
entry whose location key dereferences through the blob store to exactly the
caller's bytes `data`; no codec is applied on the write path, so unpacking
with the matching codec recovers `data` precisely when that codec's unpack
leaves the bytes unchanged — e.g. under the plain (identity) packing. -/
theorem C1_lookup_after_put (s : Service) (p : Parsed)
    (data packdata : Bytes) (opts : Option PutOptions) (s' : Service)
    (loc : Location)
    (hwf : s.store.wf) (hval : p.valid) (hne : ¬p.elems = [])
    (hput : s.Put p.path data packdata opts = (s', .ok loc)) :
    ∃ e', s'.Lookup p.path = .ok (some e') ∧ e'.location.key = loc.key ∧
      s'.store.Get e'.location.key = some (.bytes data) ∧
      (packdata = dirPackData →
        derefUnpack testRegistry s'.store e' = some data) := by
  unfold Service.Put at hput
  rw [parse_path p hval] at hput
  simp only [] at hput
  obtain ⟨rootKey0, frames, lk, lp, payload, pl', e', hroot, hdesc, hfd1, hil, _⟩ :=
    put_ok_inv hval hne hput
  obtain ⟨s'', hput2, _, _, hget, hlook⟩ :=
    put_main s "Put" p false data packdata opts rootKey0 frames lk lp payload
      pl' e' hwf hval hne hroot hdesc hfd1 hil
  rw [hput2] at hput
  cases hput
  obtain ⟨hname, hlocEq, hisdir, hpd, _⟩ := uniq_install hil
  have hg : s'.store.Get e'.location.key = some (.bytes data) := by
    rw [hlocEq]
    exact hget
  have hpd' : e'.metadata.packData = packdata := by
    rw [hpd]
    show (applyOpts _ opts).packData = packdata
    rw [applyOpts_packData]
  refine ⟨e', hlook, ?_, hg, ?_⟩
  · rw [hlocEq]
    rfl
  · intro hplain
    unfold derefUnpack
    rw [hg]
    simp only [hpd', hplain]
    simp [dirPackData, plainPacking, testRegistry, plainPacker]

/-- Witness for C1 (amended): a plain-packed write reads back exactly. -/
theorem C1_witness :
    ∃ e', ((svc3.Put "alice@x/g" [7] [0] none).1).Lookup "alice@x/g" =
        .ok (some e') ∧
      e'.location.key = (6 : Nat) ∧
      ((svc3.Put "alice@x/g" [7] [0] none).1).store.Get e'.location.key =
        some (.bytes [7]) ∧
      (([0] : Bytes) = dirPackData →
        derefUnpack testRegistry ((svc3.Put "alice@x/g" [7] [0] none).1).store
          e' = some [7]) :=
  C1_lookup_after_put svc3 ⟨"alice@x", ["g"]⟩ [7] [0] none
    (svc3.Put "alice@x/g" [7] [0] none).1 ⟨6⟩ (by decide) (by decide)
    (by decide) (by decide)

/-- Counterexample to C8 as stated: `glob("alice@x/c")` on a tree where `c`
is a directory child of the root returns the entry for `c` with its name
unchanged — no trailing separator is appended, because the normalization
only fires on a name equal to the bare user root. -/
theorem C8_counterexample :
    svc2.Glob "alice@x/c" = .ok [cEntry] ∧
    cEntry.name = "alice@x/c" ∧
    ¬(cEntry.name = "alice@x/c" ++ "/") := by
  refine ⟨by decide, by decide, by decide⟩

/-- C8 (amended): after matching the last pattern element, a trailing
separator is appended exactly to those result entries whose name equals the
bare user root; entries for directory children keep their names unchanged.
Concretely: `glob("alice@x/c")` returns the one entry for `c` with its name
unchanged, and a matched bare root comes back with a trailing separator. -/
theorem C8_glob_root_separator :
    (svc2.Glob "alice@x/c" = .ok [cEntry]) ∧
    (svc2.Glob "alice@x/" = .ok
      [{ name := "alice@x/", location := ⟨3⟩,
         metadata := { isDir := true, sequence := 0, size := 0, time := 0,
                       packData := [] } }]) ∧
    (∀ (user : String) (es : List DirEntry) (e : DirEntry),
      e ∈ globFixRoot user es →
      ∃ e0 ∈ es,
        (e0.name = user ∧ e = { e0 with name := e0.name ++ "/" }) ∨
        (¬e0.name = user ∧ e = e0)) := by
  refine ⟨by decide, by decide, ?_⟩
  intro user es e he
  unfold globFixRoot at he
  obtain ⟨e0, he0, rfl⟩ := List.mem_map.mp he
  refine ⟨e0, he0, ?_⟩
  by_cases h : (e0.name == user) = true
  · left
    refine ⟨by simpa using h, ?_⟩
    rw [if_pos h]
  · right
    refine ⟨by simpa using h, ?_⟩
    rw [if_neg h]

/-- Witness for C8: the child entry `c` passes through the normalization
unchanged, since its name is not the bare root. -/
theorem C8_witness :
    ∃ e0 ∈ [cEntry],
      (e0.name = "alice@x" ∧ cEntry = { e0 with name := e0.name ++ "/" }) ∨
      (¬e0.name = "alice@x" ∧ cEntry = e0) :=
  C8_glob_root_separator.2.2 "alice@x" [cEntry] cEntry (by decide)
